import Mathlib

/-!
Verification of the `S2CellUnion` cell-union algebra (src/src/S2CellUnion.ts).

A cell identifier is modelled as a natural number below `2^64` (the spec fixes
the identifier type to an unsigned 64-bit integer ordered naturally).  The
`S2CellId` collaborator itself is outside the studied source; its operations
are modelled from the spec's §3 contract.  All `S2CellUnion` operations are
translated directly from the TypeScript source.
-/

namespace S2

/-- Modelled from the spec: the value of the lowest set bit of the 64-bit
identifier (`lowestOnBit`).  Fuel-structural recursion; 64 halvings cover
every 64-bit value, and `lsbAux 64 n` is the largest power of two dividing
`n` for every `n < 2^64`. -/
def lsbAux : Nat → Nat → Nat
  | 0, _ => 0
  | fuel + 1, n => if n = 0 then 0 else if n % 2 = 1 then 1 else 2 * lsbAux fuel (n / 2)

/-- Modelled from the spec: `lowestOnBit` of a 64-bit cell identifier. -/
def lowestOnBit (n : Nat) : Nat := lsbAux 64 n

/-- Modelled from the spec: `rangeMin()`, the minimum leaf-level descendant
identifier spanned by the cell (the start of its span on the curve). -/
def rangeMin (n : Nat) : Nat := n - lowestOnBit n + 1

/-- Modelled from the spec: `rangeMax()`, the maximum leaf-level descendant
identifier spanned by the cell (the end of its span on the curve). -/
def rangeMax (n : Nat) : Nat := n + lowestOnBit n - 1

/-- Modelled from the spec: `contains(other)` iff
`other.rangeMin() ≥ this.rangeMin() ∧ other.rangeMax() ≤ this.rangeMax()`. -/
def cellContains (a b : Nat) : Bool :=
  decide (rangeMin a ≤ rangeMin b) && decide (rangeMax b ≤ rangeMax a)

/-- Modelled from the spec: `isFace()`, true for a level-0 (whole face) cell,
whose lowest set bit is `2^60`. -/
def isFace (n : Nat) : Bool := lowestOnBit n == 2 ^ 60

/-- Modelled from the spec: `lowestOnBitForLevel(level)`, the lowest set bit
of any cell at the given level (level 30 is the leaf level). -/
def lowestOnBitForLevel (level : Nat) : Nat := 2 ^ (2 * (30 - level))

/-- Modelled from the spec: `parent()`, the ancestor one level closer to the
root (clears the two child-position bits).  Written arithmetically: the
parent is the odd multiple of `4·lowestOnBit n` whose half-open block of
width `8·lowestOnBit n` contains `n`. -/
def parentCell (n : Nat) : Nat :=
  (n / (8 * lowestOnBit n)) * (8 * lowestOnBit n) + 4 * lowestOnBit n

/-- Modelled from the spec: `parent(level)`, the level-`level` ancestor cell:
the cell at that level whose span contains `n` (the odd multiple of
`s = lowestOnBitForLevel level` whose width-`2s` block contains `n`). -/
def parentL (n level : Nat) : Nat :=
  let s := lowestOnBitForLevel level
  (n / (2 * s)) * (2 * s) + s

/-- Modelled from the spec: number of trailing zero bits (fuel-structural). -/
def tzAux : Nat → Nat → Nat
  | 0, _ => 0
  | fuel + 1, n => if n = 0 then 0 else if n % 2 = 1 then 0 else tzAux fuel (n / 2) + 1

/-- Modelled from the spec: `level()`, an integer 0..30 encoded by the
position of the lowest set bit (a leaf has level 30). -/
def levelOf (n : Nat) : Nat := 30 - tzAux 64 n / 2

/-- A well-formed 64-bit cell identifier: a positive value below `6·2^61`
whose lowest set bit sits at an even position at most 60 (face 0..5, level
0..30).  This is exactly the set of identifiers produced by the external
`S2CellId` constructors. -/
def validCellB (n : Nat) : Bool :=
  decide (0 < n) && decide (n < 6 * 2 ^ 61) &&
    (List.range 31).any (fun k => lowestOnBit n == 4 ^ k)

def validCell (n : Nat) : Prop := validCellB n = true

/-- The four children of a parent cell `p`, in ascending curve order. -/
def childrenOf (p : Nat) : List Nat :=
  let cs := lowestOnBit p / 4
  [p - 3 * cs, p - cs, p + cs, p + 3 * cs]

/- ---------------------------------------------------------------------
   S2CellUnion.normalize  (src/src/S2CellUnion.ts, lines 510-572)
   --------------------------------------------------------------------- -/

/-- The sort step of `normalize()`: `this.cellIds.sort((a, b) => a.compareTo(b))`,
ascending by the unsigned 64-bit value. -/
def sortCells (l : List Nat) : List Nat := List.insertionSort (· ≤ ·) l

/-- The pop loop of `normalize()`: discard trailing output entries contained
by the candidate `id` (`while (output.length !== 0 && id.contains(top)) pop`).
The stack is kept head-first (head = `output[size-1]`). -/
def popContained (id : Nat) : List Nat → List Nat
  | [] => []
  | t :: rest => if cellContains id t then popContained id rest else t :: rest

/-- The mask of the collapse exact test: `~(m0 + (m0 << 1))` with
`m0 = id.lowestOnBit().shiftLeft(1)`, in wrapping 64-bit arithmetic
(`not x = 2^64 - 1 - x`). -/
def collapseMask (id : Nat) : Nat :=
  2 ^ 64 - 1 - (2 * lowestOnBit id % 2 ^ 64 +
    2 * lowestOnBit id % 2 ^ 64 * 2 % 2 ^ 64) % 2 ^ 64

/-- The exact collapse test of `normalize()` fails: one of the three stacked
entries disagrees with the candidate under the mask, or the candidate is a
whole face. -/
def exactTestFails (a b c id : Nat) : Prop :=
  a &&& collapseMask id ≠ id &&& collapseMask id ∨
    b &&& collapseMask id ≠ id &&& collapseMask id ∨
    c &&& collapseMask id ≠ id &&& collapseMask id ∨ isFace id = true

instance (a b c id : Nat) : Decidable (exactTestFails a b c id) := by
  unfold exactTestFails
  infer_instance

/-- The sibling-collapse loop of `normalize()` (`while (output.length >= 3)`),
head-first stack: `c = output[size-1]`, `b = output[size-2]`, `a = output[size-3]`.
The precheck compares `a AND b AND c` against `id` (the source's `.and` chain);
then the exact masked test runs, and on success the three entries are replaced
and the loop retries with the parent as candidate. -/
def collapseFn : List Nat → Nat → List Nat × Nat
  | c :: b :: a :: rest, id =>
    if a &&& b &&& c ≠ id then (c :: b :: a :: rest, id)
    else if exactTestFails a b c id then (c :: b :: a :: rest, id)
    else collapseFn rest (parentCell id)
  | out, id => (out, id)

/-- Pop the entries the candidate contains, run the collapse loop, push. -/
def pushStep (out : List Nat) (id : Nat) : List Nat :=
  let p := collapseFn (popContained id out) id
  p.2 :: p.1

/-- One iteration of the `forEach` body of `normalize()`: drop the candidate
if the output's top contains it, otherwise pop/collapse/push. -/
def addCell : List Nat → Nat → List Nat
  | [], id => pushStep [] id
  | t :: rest, id => if cellContains t id then t :: rest else pushStep (t :: rest) id

/-- `normalize()`: sort ascending, run the stack pass, and swap in the output
exactly when it is shorter than the input; returns the stored sequence after
the call (ascending order) together with the boolean result. -/
def normalizeList (l : List Nat) : List Nat × Bool :=
  let sorted := sortCells l
  let out := sorted.foldl addCell []
  if out.length < l.length then (out.reverse, true) else (sorted, false)

/- ---------------------------------------------------------------------
   contains / intersects  (lines 159-229)
   --------------------------------------------------------------------- -/

/-- Modelled from the spec: `S2CellId.binarySearch` insertion point in a
sorted sequence — the index of the first entry ≥ the searched value (the
sequence length if none), after the source's `-pos-1` adjustment. -/
def bsearchPos (l : List Nat) (v : Nat) : Nat :=
  l.findIdx (fun c => decide (v ≤ c))

/-- `contains(id)` (lines 159-177): binary-search for the raw value, then
test `cellIds[pos].rangeMin() ≤ id` or `cellIds[pos-1].rangeMax() ≥ id`. -/
def containsB (l : List Nat) (v : Nat) : Bool :=
  let pos := bsearchPos l v
  (decide (pos < l.length) && decide (rangeMin (l.getD pos 0) ≤ v)) ||
    (decide (pos ≠ 0) && decide (v ≤ rangeMax (l.getD (pos - 1) 0)))

/-- `intersects(id)` (lines 183-197): same search, with the candidate's
`rangeMax`/`rangeMin` on the right-hand sides. -/
def intersectsB (l : List Nat) (v : Nat) : Bool :=
  let pos := bsearchPos l v
  (decide (pos < l.length) && decide (rangeMin (l.getD pos 0) ≤ rangeMax v)) ||
    (decide (pos ≠ 0) && decide (rangeMin v ≤ rangeMax (l.getD (pos - 1) 0)))

/-- `intersectsUnion(that)` (lines 219-229): false as soon as one identifier
of `that` fails `this.intersects`, true when the loop completes. -/
def intersectsUnionB (u othr : List Nat) : Bool :=
  othr.all (fun id => intersectsB u id)

/- ---------------------------------------------------------------------
   getIntersectionUU  (lines 266-317)
   --------------------------------------------------------------------- -/

/-- Modelled from the spec: `S2CellId.indexedBinarySearch(l, target, low)` —
the first index at or after `low` whose entry is ≥ `target`, else `l.length`. -/
def ibsearch (l : List Nat) (target low : Nat) : Nat :=
  low + List.findIdx (fun c => decide (target ≤ c)) (l.drop low)

/-- The merge loop of `getIntersectionUU` with cursors `i`, `j`.
Fuel-structural; every iteration strictly decreases
`(x.length - i) + (y.length - j)`, so any fuel at least that measure gives
the loop's exact behaviour. -/
def interF (x y : List Nat) : Nat → Nat → Nat → List Nat
  | 0, _, _ => []
  | fuel + 1, i, j =>
    if i < x.length ∧ j < y.length then
      let xi := x.getD i 0
      let yj := y.getD j 0
      let imin := rangeMin xi
      let jmin := rangeMin yj
      if jmin < imin then
        if xi ≤ rangeMax yj then xi :: interF x y fuel (i + 1) j
        else
          let jn := ibsearch y imin (j + 1)
          if xi ≤ rangeMax (y.getD (jn - 1) 0) then interF x y fuel i (jn - 1)
          else interF x y fuel i jn
      else if imin < jmin then
        if yj ≤ rangeMax xi then yj :: interF x y fuel i (j + 1)
        else
          let i2 := ibsearch x jmin (i + 1)
          if yj ≤ rangeMax (x.getD (i2 - 1) 0) then interF x y fuel (i2 - 1) j
          else interF x y fuel i2 j
      else
        if xi < yj then xi :: interF x y fuel (i + 1) j
        else yj :: interF x y fuel i (j + 1)
    else []

/-- `getIntersectionUU(x, y)`: the sequence stored in the receiver. -/
def getIntersectionUUModel (x y : List Nat) : List Nat :=
  interF x y (x.length + y.length) 0 0

/- ---------------------------------------------------------------------
   expand  (lines 331-350)
   --------------------------------------------------------------------- -/

/-- The inner skip of `expand`: `while (i > 0 && id.contains(cellId(i-1))) --i`. -/
def skipBack (l : List Nat) (id : Nat) : Nat → Nat
  | 0 => 0
  | i + 1 => if cellContains id (l.getD i 0) then skipBack l id i else i + 1

/-- The do-while body of `expand`, iterating the index `i` downward: if the
entry at `i` is finer than the target level (its lowest set bit is below the
level's), it is replaced by its level-`level` ancestor and the index skips
backward over entries that ancestor contains; the (possibly replaced) cell
and its neighbors are emitted, then the loop steps to the next lower index
(`while (--i >= 0)`).  Fuel-structural; the index drops by at least one per
iteration, so fuel `l.length` reproduces the loop exactly from
`i = l.length - 1`. -/
def expandGoF (nb : Nat → Nat → List Nat) (l : List Nat) (levelLsb level : Nat) :
    Nat → Nat → List Nat
  | 0, _ => []
  | fuel + 1, i =>
    if lowestOnBit (l.getD i 0) < levelLsb then
      let idp := parentL (l.getD i 0) level
      let i2 := skipBack l idp i
      if i2 = 0 then idp :: nb idp level
      else (idp :: nb idp level) ++ expandGoF nb l levelLsb level fuel (i2 - 1)
    else
      if i = 0 then l.getD i 0 :: nb (l.getD i 0) level
      else (l.getD i 0 :: nb (l.getD i 0) level) ++
        expandGoF nb l levelLsb level fuel (i - 1)

/-- JavaScript element access `this.cellIds[i]` with a possibly negative
index: no cell is produced outside the array bounds. -/
def cellIdAt (l : List Nat) (i : Int) : Option Nat :=
  if 0 ≤ i ∧ i.toNat < l.length then some (l.getD i.toNat 0) else none

/-- `expand(level)`, parametrised by the external `getAllNeighbors`
enumeration `nb`.  The do-while body starts at index `size - 1`; its very
first element access decides whether the operation can run at all (on an
empty union the access at index `-1` yields no cell and the call fails).
On success the result is the pair stored by `initSwap` (sequence after
`normalize()`, and `normalize`'s boolean). -/
def expandCode (nb : Nat → Nat → List Nat) (l : List Nat) (level : Nat) :
    Option (List Nat × Bool) :=
  let levelLsb := lowestOnBitForLevel level
  match cellIdAt l ((l.length : Int) - 1) with
  | none => none
  | some _ => some (normalizeList (expandGoF nb l levelLsb level l.length (l.length - 1)))

/-- The spec's description of the `expand(level)` scan, amended to replace
entries strictly FINER than the target level (the claim's "coarser" reading
is refuted separately): process the entries from the end toward the start
(the reversed sequence); an entry finer than `level` is replaced by its
level-`level` ancestor, and the upcoming entries that ancestor contains are
skipped (eliminated); each step emits the (possibly replaced) cell plus its
same-level neighbors. -/
def expandSpecGoF (nb : Nat → Nat → List Nat) (levelLsb level : Nat) :
    Nat → List Nat → List Nat
  | 0, _ => []
  | _ + 1, [] => []
  | fuel + 1, id :: rest =>
    if lowestOnBit id < levelLsb then
      let idp := parentL id level
      (idp :: nb idp level) ++ expandSpecGoF nb levelLsb level fuel
        (rest.dropWhile (fun c => cellContains idp c))
    else
      (id :: nb id level) ++ expandSpecGoF nb levelLsb level fuel rest

/-- The spec-described `expand(level)` (finer-entry reading): fails on an
empty union, otherwise runs the backward scan and normalizes the result. -/
def expandSpec (nb : Nat → Nat → List Nat) (l : List Nat) (level : Nat) :
    Option (List Nat × Bool) :=
  if l = [] then none
  else some (normalizeList
    (expandSpecGoF nb (lowestOnBitForLevel level) level l.length l.reverse))

/-- The claim's literal description of the `expand(level)` scan: an entry
whose own granularity is COARSER than `level` (lowest set bit above the
level's) is the one replaced by `parent(level)`, with the same skipping. -/
def expandClaimedGoF (nb : Nat → Nat → List Nat) (levelLsb level : Nat) :
    Nat → List Nat → List Nat
  | 0, _ => []
  | _ + 1, [] => []
  | fuel + 1, id :: rest =>
    if levelLsb < lowestOnBit id then
      let idp := parentL id level
      (idp :: nb idp level) ++ expandClaimedGoF nb levelLsb level fuel
        (rest.dropWhile (fun c => cellContains idp c))
    else
      (id :: nb id level) ++ expandClaimedGoF nb levelLsb level fuel rest

/-- The claim's literal `expand(level)` (coarser-entry reading). -/
def expandClaimed (nb : Nat → Nat → List Nat) (l : List Nat) (level : Nat) :
    Option (List Nat × Bool) :=
  if l = [] then none
  else some (normalizeList
    (expandClaimedGoF nb (lowestOnBitForLevel level) level l.length l.reverse))

/-- A trivial adjacency enumeration, used to instantiate the external
`getAllNeighbors` parameter on concrete inputs. -/
def noNeighbors : Nat → Nat → List Nat := fun _ _ => []

/- ---------------------------------------------------------------------
   leafCellsCovered  (lines 441-449)
   --------------------------------------------------------------------- -/

/-- `leafCellsCovered()`: fold `numLeaves + (1 << (invertedLevel << 1))` in
64-bit (wrapping) arithmetic over the entries. -/
def leafCellsCoveredL (l : List Nat) : Nat :=
  l.foldl (fun acc id => (acc + 2 ^ (2 * (30 - levelOf id))) % 2 ^ 64) 0

/- ---------------------------------------------------------------------
   Spec-side definitions used to state the claims
   --------------------------------------------------------------------- -/

/-- Invariant 1 of the data model: sorted strictly ascending by raw value. -/
def StrictAsc (l : List Nat) : Prop := l.Pairwise (· < ·)

/-- Invariant 2: no identifier of the sequence is contained by another. -/
def NoContainL (l : List Nat) : Prop :=
  l.Pairwise (fun a b => cellContains a b = false ∧ cellContains b a = false)

/-- All entries are well-formed 64-bit cell identifiers. -/
def AllValid (l : List Nat) : Prop := ∀ c ∈ l, validCell c

/-- Four identifiers that are exactly the four children of a common parent. -/
def isSibGroup (a b c d : Nat) : Prop :=
  lowestOnBit d < 2 ^ 60 ∧ [a, b, c, d] = childrenOf (parentCell d)

/-- Invariant 3: no four consecutive identifiers form a sibling group. -/
def NoSibGroup (l : List Nat) : Prop :=
  ∀ i, i < l.length → i + 3 < l.length →
    ¬ isSibGroup (l.getD i 0) (l.getD (i + 1) 0) (l.getD (i + 2) 0) (l.getD (i + 3) 0)

/-- A normalized union of well-formed identifiers (invariants 1-3 of §3). -/
def IsNormalizedL (l : List Nat) : Prop :=
  StrictAsc l ∧ NoContainL l ∧ NoSibGroup l ∧ AllValid l

/-- The set of curve positions covered by the union (`v` lies in the span of
some entry). -/
def covList (l : List Nat) (v : Nat) : Prop :=
  ∃ c ∈ l, rangeMin c ≤ v ∧ v ≤ rangeMax c

/-- `d` is a proper descendant of `c`: a well-formed cell strictly inside
`c`'s span. -/
def ProperDesc (c d : Nat) : Prop := validCell d ∧ cellContains c d = true ∧ d ≠ c

/-- A leaf-level identifier (level 30, lowest set bit 1). -/
def isLeaf (n : Nat) : Prop := validCell n ∧ lowestOnBit n = 1

instance (n : Nat) : Decidable (validCell n) :=
  inferInstanceAs (Decidable (validCellB n = true))

instance (l : List Nat) : Decidable (StrictAsc l) :=
  inferInstanceAs (Decidable (l.Pairwise (· < ·)))

instance (l : List Nat) : Decidable (NoContainL l) :=
  inferInstanceAs (Decidable (l.Pairwise
    (fun a b => cellContains a b = false ∧ cellContains b a = false)))

instance (l : List Nat) : Decidable (AllValid l) :=
  inferInstanceAs (Decidable (∀ c ∈ l, validCell c))

instance (c d : Nat) : Decidable (ProperDesc c d) :=
  inferInstanceAs (Decidable (validCell d ∧ cellContains c d = true ∧ d ≠ c))

instance (n : Nat) : Decidable (isLeaf n) :=
  inferInstanceAs (Decidable (validCell n ∧ lowestOnBit n = 1))

/- ---------------------------------------------------------------------
   Structure of well-formed identifiers
   --------------------------------------------------------------------- -/

theorem lsbAux_odd_mul_pow :
    ∀ fuel j t, j < fuel → lsbAux fuel ((2 * t + 1) * 2 ^ j) = 2 ^ j := by
  intro fuel
  induction fuel with
  | zero => intro j t h; omega
  | succ f ih =>
    intro j t h
    match j with
    | 0 =>
      have h1 : (2 * t + 1) * 2 ^ 0 = 2 * t + 1 := by ring
      rw [h1, lsbAux]
      have h2 : ¬(2 * t + 1 = 0) := by omega
      have h3 : (2 * t + 1) % 2 = 1 := by omega
      simp [h2, h3]
    | j + 1 =>
      have h1 : (2 * t + 1) * 2 ^ (j + 1) = 2 * ((2 * t + 1) * 2 ^ j) := by ring
      rw [h1, lsbAux]
      have hpos : 0 < (2 * t + 1) * 2 ^ j := by positivity
      have h2 : ¬(2 * ((2 * t + 1) * 2 ^ j) = 0) := by omega
      have h3 : ¬(2 * ((2 * t + 1) * 2 ^ j) % 2 = 1) := by omega
      have h4 : 2 * ((2 * t + 1) * 2 ^ j) / 2 = (2 * t + 1) * 2 ^ j :=
        Nat.mul_div_cancel_left _ (by omega)
      simp only [h2, h3, if_false, h4]
      rw [ih j t (by omega)]
      ring

theorem lowestOnBit_odd_mul_pow (j t : Nat) (h : j < 64) :
    lowestOnBit ((2 * t + 1) * 2 ^ j) = 2 ^ j :=
  lsbAux_odd_mul_pow 64 j t h

theorem lsbAux_le : ∀ fuel n, lsbAux fuel n ≤ n := by
  intro fuel
  induction fuel with
  | zero => intro n; simp [lsbAux]
  | succ f ih =>
    intro n
    rw [lsbAux]
    by_cases h0 : n = 0
    · simp [h0]
    by_cases h1 : n % 2 = 1
    · simp [h0, h1]; omega
    · simp only [h0, h1, if_false]
      have := ih (n / 2)
      omega

theorem lowestOnBit_le (n : Nat) : lowestOnBit n ≤ n := lsbAux_le 64 n

theorem lsbAux_struct :
    ∀ fuel n, 0 < n → n < 2 ^ fuel → ∃ t, n = (2 * t + 1) * lsbAux fuel n := by
  intro fuel
  induction fuel with
  | zero => intro n h1 h2; omega
  | succ f ih =>
    intro n h1 h2
    rw [lsbAux]
    have h0 : ¬(n = 0) := by omega
    by_cases ho : n % 2 = 1
    · exact ⟨n / 2, by simp [h0, ho]; omega⟩
    · simp only [h0, ho, if_false]
      have hhalf : 0 < n / 2 := by omega
      have hlt : n / 2 < 2 ^ f := by
        have : 2 ^ (f + 1) = 2 * 2 ^ f := by ring
        omega
      obtain ⟨t, ht⟩ := ih (n / 2) hhalf hlt
      refine ⟨t, ?_⟩
      have hn2 : n = 2 * (n / 2) := by omega
      conv_lhs => rw [hn2, ht]
      ring

/-- Canonical decomposition of a well-formed identifier: level offset `k`
(0 at the leaves) and block index `t`, with `n = 2t·4^k + 4^k`. -/
theorem valid_destruct (n : Nat) (h : validCell n) :
    ∃ k t, k ≤ 30 ∧ n = 2 * t * 4 ^ k + 4 ^ k ∧ lowestOnBit n = 4 ^ k ∧
      n < 6 * 2 ^ 61 := by
  have h' := h
  unfold validCell validCellB at h'
  simp only [Bool.and_eq_true, decide_eq_true_eq, List.any_eq_true, List.mem_range,
    beq_iff_eq] at h'
  obtain ⟨⟨hpos, hlt⟩, k, hk, hlsb⟩ := h'
  have hbound : n < 2 ^ 64 := by
    have : (6 : Nat) * 2 ^ 61 < 2 ^ 64 := by norm_num
    omega
  obtain ⟨t, ht⟩ := lsbAux_struct 64 n hpos hbound
  rw [show lsbAux 64 n = lowestOnBit n from rfl, hlsb] at ht
  exact ⟨k, t, by omega, by rw [ht]; ring, hlsb, hlt⟩

theorem valid_of_struct (k t n : Nat) (hk : k ≤ 30)
    (hn : n = 2 * t * 4 ^ k + 4 ^ k) (hb : n < 6 * 2 ^ 61) : validCell n := by
  unfold validCell validCellB
  simp only [Bool.and_eq_true, decide_eq_true_eq, List.any_eq_true, List.mem_range,
    beq_iff_eq]
  have hpow : (0 : Nat) < 4 ^ k := Nat.pos_pow_of_pos _ (by omega)
  refine ⟨⟨by omega, hb⟩, k, by omega, ?_⟩
  have h4 : (4 : Nat) ^ k = 2 ^ (2 * k) := by
    rw [show (4 : Nat) = 2 ^ 2 from rfl, ← pow_mul]
  have : n = (2 * t + 1) * 2 ^ (2 * k) := by rw [hn, h4]; ring
  rw [this, lowestOnBit_odd_mul_pow _ _ (by omega), h4]

theorem rangeMin_of_struct (n k t : Nat) (hn : n = 2 * t * 4 ^ k + 4 ^ k)
    (hl : lowestOnBit n = 4 ^ k) : rangeMin n = 2 * t * 4 ^ k + 1 := by
  have hpow : (0 : Nat) < 4 ^ k := Nat.pos_pow_of_pos _ (by omega)
  unfold rangeMin
  omega

theorem rangeMax_of_struct (n k t : Nat) (hn : n = 2 * t * 4 ^ k + 4 ^ k)
    (hl : lowestOnBit n = 4 ^ k) :
    rangeMax n = 2 * t * 4 ^ k + 2 * 4 ^ k - 1 := by
  have hpow : (0 : Nat) < 4 ^ k := Nat.pos_pow_of_pos _ (by omega)
  unfold rangeMax
  omega

theorem valid_center (n : Nat) (h : validCell n) :
    rangeMin n ≤ n ∧ n ≤ rangeMax n ∧ 0 < rangeMin n := by
  obtain ⟨k, t, _, hn, hl, _⟩ := valid_destruct n h
  have hpow : (0 : Nat) < 4 ^ k := Nat.pos_pow_of_pos _ (by omega)
  rw [rangeMin_of_struct n k t hn hl, rangeMax_of_struct n k t hn hl]
  omega

/- ---------------------------------------------------------------------
   Laminarity: the spans of two well-formed cells nest or are disjoint
   --------------------------------------------------------------------- -/

theorem laminar_le (k k' t u a b : Nat) (hkk : k' ≤ k)
    (ha : a = 2 * t * 4 ^ k + 4 ^ k) (hb : b = 2 * u * 4 ^ k' + 4 ^ k')
    (hla : lowestOnBit a = 4 ^ k) (hlb : lowestOnBit b = 4 ^ k') :
    rangeMax a < rangeMin b ∨ rangeMax b < rangeMin a ∨
      (rangeMin a ≤ rangeMin b ∧ rangeMax b ≤ rangeMax a) := by
  rw [rangeMin_of_struct a k t ha hla, rangeMax_of_struct a k t ha hla,
    rangeMin_of_struct b k' u hb hlb, rangeMax_of_struct b k' u hb hlb]
  have hr : (0 : Nat) < 4 ^ k' := Nat.pos_pow_of_pos _ (by omega)
  have he : (0 : Nat) < 4 ^ (k - k') := Nat.pos_pow_of_pos _ (by omega)
  have hsplit : (4 : Nat) ^ k = 4 ^ k' * 4 ^ (k - k') := by
    rw [← pow_add]
    congr 1
    omega
  set r := (4 : Nat) ^ k' with hrdef
  set e := (4 : Nat) ^ (k - k') with hedef
  rw [hsplit]
  rcases Nat.lt_or_ge u (t * e) with hu | hu
  · right; left
    have h2 : (u + 1) * (2 * r) ≤ t * e * (2 * r) := Nat.mul_le_mul_right _ hu
    have h3 : (u + 1) * (2 * r) = 2 * u * r + 2 * r := by ring
    have h4 : t * e * (2 * r) = 2 * t * (r * e) := by ring
    omega
  · rcases Nat.lt_or_ge u (t * e + e) with hu2 | hu2
    · right; right
      constructor
      · have h2 : t * e * (2 * r) ≤ u * (2 * r) := Nat.mul_le_mul_right _ hu
        have h3 : t * e * (2 * r) = 2 * t * (r * e) := by ring
        have h4 : u * (2 * r) = 2 * u * r := by ring
        omega
      · have h2 : (u + 1) * (2 * r) ≤ (t * e + e) * (2 * r) :=
          Nat.mul_le_mul_right _ (by omega)
        have h3 : (u + 1) * (2 * r) = 2 * u * r + 2 * r := by ring
        have h4 : (t * e + e) * (2 * r) = 2 * t * (r * e) + 2 * (r * e) := by ring
        omega
    · left
      have h2 : (t * e + e) * (2 * r) ≤ u * (2 * r) := Nat.mul_le_mul_right _ hu2
      have h3 : (t * e + e) * (2 * r) = 2 * t * (r * e) + 2 * (r * e) := by ring
      have h4 : u * (2 * r) = 2 * u * r := by ring
      omega

/-- Spans of well-formed cells are laminar: disjoint or nested. -/
theorem laminar (a b : Nat) (ha : validCell a) (hb : validCell b) :
    rangeMax a < rangeMin b ∨ rangeMax b < rangeMin a ∨
      (rangeMin a ≤ rangeMin b ∧ rangeMax b ≤ rangeMax a) ∨
      (rangeMin b ≤ rangeMin a ∧ rangeMax a ≤ rangeMax b) := by
  obtain ⟨k, t, hk, hsa, hla, _⟩ := valid_destruct a ha
  obtain ⟨k', u, hk', hsb, hlb, _⟩ := valid_destruct b hb
  rcases Nat.le_total k' k with hkk | hkk
  · rcases laminar_le k k' t u a b hkk hsa hsb hla hlb with h | h | h
    · exact Or.inl h
    · exact Or.inr (Or.inl h)
    · exact Or.inr (Or.inr (Or.inl h))
  · rcases laminar_le k' k u t b a hkk hsb hsa hlb hla with h | h | h
    · exact Or.inr (Or.inl h)
    · exact Or.inl h
    · exact Or.inr (Or.inr (Or.inr h))

theorem contains_iff (a b : Nat) :
    cellContains a b = true ↔ rangeMin a ≤ rangeMin b ∧ rangeMax b ≤ rangeMax a := by
  simp [cellContains]

theorem contains_false_iff (a b : Nat) :
    cellContains a b = false ↔ ¬(rangeMin a ≤ rangeMin b ∧ rangeMax b ≤ rangeMax a) := by
  rw [Bool.eq_false_iff]
  exact not_congr (contains_iff a b)

theorem contains_refl (a : Nat) : cellContains a a = true := by
  simp [cellContains]

theorem contains_span (a b v : Nat) (h : cellContains a b = true)
    (h1 : rangeMin b ≤ v) (h2 : v ≤ rangeMax b) :
    rangeMin a ≤ v ∧ v ≤ rangeMax a := by
  rw [contains_iff] at h
  omega

theorem contains_trans (a b c : Nat) (h1 : cellContains a b = true)
    (h2 : cellContains b c = true) : cellContains a c = true := by
  rw [contains_iff] at h1 h2 ⊢
  omega

theorem ranges_inj (a b : Nat) (ha : validCell a) (hb : validCell b)
    (h1 : rangeMin a = rangeMin b) (h2 : rangeMax a = rangeMax b) : a = b := by
  obtain ⟨k, t, hk, hsa, hla, _⟩ := valid_destruct a ha
  obtain ⟨k', u, hk', hsb, hlb, _⟩ := valid_destruct b hb
  rw [rangeMin_of_struct a k t hsa hla, rangeMin_of_struct b k' u hsb hlb] at h1
  rw [rangeMax_of_struct a k t hsa hla, rangeMax_of_struct b k' u hsb hlb] at h2
  have hpa : (0 : Nat) < 4 ^ k := Nat.pos_pow_of_pos _ (by omega)
  have hpb : (0 : Nat) < 4 ^ k' := Nat.pos_pow_of_pos _ (by omega)
  omega

theorem contains_antisymm (a b : Nat) (ha : validCell a) (hb : validCell b)
    (h1 : cellContains a b = true) (h2 : cellContains b a = true) : a = b := by
  rw [contains_iff] at h1 h2
  exact ranges_inj a b ha hb (by omega) (by omega)

/-- A cell whose span holds the raw value of a cell `a` contains `a` wholly:
the value `a` sits at the centre of its span, which no strictly finer
cell span can straddle. -/
theorem center_in_contains (a b : Nat) (ha : validCell a) (hb : validCell b)
    (h1 : rangeMin b ≤ a) (h2 : a ≤ rangeMax b) : cellContains b a = true := by
  obtain ⟨k, t, hk, hsa, hla, _⟩ := valid_destruct a ha
  obtain ⟨k', u, hk', hsb, hlb, _⟩ := valid_destruct b hb
  rcases Nat.le_total k k' with hkk | hkk
  · rcases laminar_le k' k u t b a hkk hsb hsa hlb hla with h | h | h
    · have := valid_center a ha
      omega
    · have := valid_center a ha
      omega
    · rw [contains_iff]
      exact h
  · -- `a` strictly coarser than `b` is impossible: the raw value of `a` is a
    -- multiple of twice `b`'s lowest set bit, so it cannot lie strictly
    -- inside `b`'s span.
    rcases Nat.eq_or_lt_of_le hkk with heq | hlt
    · rcases laminar_le k' k u t b a (by omega) hsb hsa hlb hla with h | h | h
      · have := valid_center a ha
        omega
      · have := valid_center a ha
        omega
      · rw [contains_iff]
        exact h
    · exfalso
      have hr : (0 : Nat) < 4 ^ k' := Nat.pos_pow_of_pos _ (by omega)
      have hkpow : (4 : Nat) ^ k = 4 ^ k' * 4 ^ (k - k' - 1) * 4 := by
        rw [show (4 : Nat) ^ k' * 4 ^ (k - k' - 1) * 4 = 4 ^ (k' + (k - k' - 1) + 1) by
          rw [pow_add, pow_add, pow_one]]
        congr 1
        omega
      rw [rangeMin_of_struct b k' u hsb hlb] at h1
      rw [rangeMax_of_struct b k' u hsb hlb] at h2
      have hram : a = 2 * 4 ^ k' * (4 * t * 4 ^ (k - k' - 1) + 2 * 4 ^ (k - k' - 1)) := by
        rw [hsa, hkpow]
        ring
      have e1 : 2 * u * 4 ^ k' + 1 = 2 * 4 ^ k' * u + 1 := by ring
      have e2 : 2 * u * 4 ^ k' + 2 * 4 ^ k' - 1 + 1 = 2 * 4 ^ k' * (u + 1) := by
        have : (0 : Nat) < 2 * 4 ^ k' := by omega
        have e3 : 2 * u * 4 ^ k' + 2 * 4 ^ k' = 2 * 4 ^ k' * (u + 1) := by ring
        omega
      have hlow : 2 * 4 ^ k' * u < 2 * 4 ^ k' *
          (4 * t * 4 ^ (k - k' - 1) + 2 * 4 ^ (k - k' - 1)) := by
        omega
      have hhigh : 2 * 4 ^ k' * (4 * t * 4 ^ (k - k' - 1) + 2 * 4 ^ (k - k' - 1)) <
          2 * 4 ^ k' * (u + 1) := by
        omega
      have hum : u < 4 * t * 4 ^ (k - k' - 1) + 2 * 4 ^ (k - k' - 1) :=
        Nat.lt_of_mul_lt_mul_left hlow
      have hmu : 4 * t * 4 ^ (k - k' - 1) + 2 * 4 ^ (k - k' - 1) < u + 1 :=
        Nat.lt_of_mul_lt_mul_left hhigh
      omega

theorem disjoint_ordered (a b : Nat) (ha : validCell a) (hb : validCell b)
    (hab : a < b) (h1 : cellContains a b = false) (h2 : cellContains b a = false) :
    rangeMax a < rangeMin b := by
  have hca := valid_center a ha
  have hcb := valid_center b hb
  rcases laminar a b ha hb with h | h | h | h
  · exact h
  · omega
  · rw [contains_false_iff] at h1
    exact absurd h h1
  · rw [contains_false_iff] at h2
    exact absurd h h2

/-- Two well-formed spans sharing a point nest one way or the other. -/
theorem overlap_nested (a b v : Nat) (ha : validCell a) (hb : validCell b)
    (h1 : rangeMin a ≤ v) (h2 : v ≤ rangeMax a) (h3 : rangeMin b ≤ v)
    (h4 : v ≤ rangeMax b) :
    cellContains a b = true ∨ cellContains b a = true := by
  rcases laminar a b ha hb with h | h | h | h
  · omega
  · omega
  · exact Or.inl (by rw [contains_iff]; exact h)
  · exact Or.inr (by rw [contains_iff]; exact h)

/- ---------------------------------------------------------------------
   The normalize stack pass
   --------------------------------------------------------------------- -/

theorem popContained_suffix (id : Nat) :
    ∀ out : List Nat, List.IsSuffix (popContained id out) out := by
  intro out
  induction out with
  | nil => simp [popContained]
  | cons t rest ih =>
    rw [popContained]
    by_cases h : cellContains id t = true
    · rw [if_pos h]
      exact ih.trans (List.suffix_cons t rest)
    · rw [if_neg h]

theorem popContained_split (id : Nat) :
    ∀ out : List Nat, ∃ dropped, out = dropped ++ popContained id out ∧
      ∀ e ∈ dropped, cellContains id e = true := by
  intro out
  induction out with
  | nil => exact ⟨[], by simp [popContained]⟩
  | cons t rest ih =>
    rw [popContained]
    by_cases h : cellContains id t = true
    · obtain ⟨dropped, hd1, hd2⟩ := ih
      refine ⟨t :: dropped, ?_, ?_⟩
      · rw [if_pos h, List.cons_append, ← hd1]
      · intro e he
        rcases List.mem_cons.mp he with rfl | he'
        · exact h
        · exact hd2 e he'
    · rw [if_neg h]
      exact ⟨[], by simp⟩

theorem popContained_head (id : Nat) (out : List Nat) (t : Nat) (rest : List Nat)
    (h : popContained id out = t :: rest) : cellContains id t = false := by
  induction out with
  | nil => simp [popContained] at h
  | cons x xs ih =>
    rw [popContained] at h
    by_cases hx : cellContains id x = true
    · rw [if_pos hx] at h
      exact ih h
    · rw [if_neg hx] at h
      cases h
      exact Bool.eq_false_iff.mpr hx

/-- The collapse loop is the identity whenever the stack is empty or its top
is strictly below the candidate: the AND of the top three entries is at most
the top, so the source's precheck never matches the candidate. -/
theorem collapse_triv (out : List Nat) (id : Nat)
    (h : out = [] ∨ ∃ t rest, out = t :: rest ∧ t < id) :
    collapseFn out id = (out, id) := by
  match out with
  | [] => rfl
  | [x] => rfl
  | [x, y] => rfl
  | c :: b :: a :: rest =>
    rcases h with h | ⟨t, rest', ht, hlt⟩
    · cases h
    · have hc : c = t := by injection ht
      have hand : a &&& b &&& c ≤ c := Nat.and_le_right
      rw [collapseFn, if_pos]
      omega

theorem addCell_cases (out : List Nat) (id : Nat) (hle : ∀ e ∈ out, e ≤ id) :
    (∃ t rest, out = t :: rest ∧ cellContains t id = true ∧ addCell out id = out) ∨
      (addCell out id = id :: popContained id out ∧
        (out = [] ∨ ∃ t rest, out = t :: rest ∧ cellContains t id = false)) := by
  match out with
  | [] =>
    right
    exact ⟨rfl, Or.inl rfl⟩
  | t :: rest =>
    by_cases h : cellContains t id = true
    · refine Or.inl ⟨t, rest, rfl, h, ?_⟩
      show (if cellContains t id = true then t :: rest else pushStep (t :: rest) id) = _
      rw [if_pos h]
    · right
      refine ⟨?_, Or.inr ⟨t, rest, rfl, Bool.eq_false_iff.mpr h⟩⟩
      show (if cellContains t id = true then t :: rest else pushStep (t :: rest) id) = _
      rw [if_neg h, pushStep]
      rcases hp : popContained id (t :: rest) with _ | ⟨p, ps⟩
      · rw [collapse_triv [] id (Or.inl rfl)]
      · have hpf : cellContains id p = false := popContained_head id _ p ps hp
        have hmem : p ∈ t :: rest := by
          have hs := popContained_suffix id (t :: rest)
          rw [hp] at hs
          exact hs.sublist.mem (List.mem_cons_self p ps)
        have hple : p ≤ id := hle p hmem
        have hpne : p ≠ id := by
          intro h'
          rw [h'] at hpf
          rw [contains_refl id] at hpf
          cases hpf
        rw [collapse_triv (p :: ps) id (Or.inr ⟨p, ps, rfl, by omega⟩)]

theorem pairwise_gt_of_cons {p : Nat} {ps : List Nat}
    (h : (p :: ps).Pairwise (fun a b => b < a)) : ∀ e ∈ ps, e < p :=
  fun e he => (List.pairwise_cons.mp h).1 e he

theorem addCell_strictDesc (out : List Nat) (id : Nat)
    (hd : out.Pairwise (fun a b => b < a)) (hle : ∀ e ∈ out, e ≤ id) :
    (addCell out id).Pairwise (fun a b => b < a) := by
  rcases addCell_cases out id hle with ⟨t, rest, rfl, hc, heq⟩ | ⟨heq, _⟩
  · rw [heq]
    exact hd
  · rw [heq]
    have hsub : (popContained id out).Pairwise (fun a b => b < a) :=
      List.Pairwise.sublist (popContained_suffix id out).sublist hd
    refine List.pairwise_cons.mpr ⟨?_, hsub⟩
    intro e he
    rcases hp : popContained id out with _ | ⟨p, ps⟩
    · rw [hp] at he
      cases he
    · rw [hp] at he hsub
      have hpf : cellContains id p = false := popContained_head id _ p ps hp
      have hple : p ≤ id := by
        refine hle p ?_
        have hs := popContained_suffix id out
        rw [hp] at hs
        exact hs.sublist.mem (List.mem_cons_self p ps)
      have hpne : p ≠ id := by
        intro h'
        rw [h'] at hpf
        rw [contains_refl id] at hpf
        cases hpf
      rcases List.mem_cons.mp he with rfl | he'
      · omega
      · have := pairwise_gt_of_cons hsub e he'
        omega

theorem collapse_len : ∀ n out id, out.length ≤ n →
    ((collapseFn out id).1).length ≤ out.length := by
  intro n
  induction n with
  | zero =>
    intro out id h
    match out with
    | [] => simp [collapseFn]
    | [x] => simp [collapseFn]
    | [x, y] => simp [collapseFn]
    | c :: b :: a :: rest => simp at h
  | succ n ih =>
    intro out id h
    match out with
    | [] => simp [collapseFn]
    | [x] => simp [collapseFn]
    | [x, y] => simp [collapseFn]
    | c :: b :: a :: rest =>
      rw [collapseFn]
      by_cases h1 : a &&& b &&& c ≠ id
      · rw [if_pos h1]
      · rw [if_neg h1]
        by_cases h2 : exactTestFails a b c id
        · rw [if_pos h2]
        · rw [if_neg h2]
          have hr : rest.length ≤ n := by
            simp at h ⊢
            omega
          have := ih rest (parentCell id) hr
          simp only [List.length_cons]
          omega

theorem addCell_len (out : List Nat) (id : Nat) (hle : ∀ e ∈ out, e ≤ id) :
    (addCell out id).length ≤ out.length + 1 := by
  rcases addCell_cases out id hle with ⟨t, rest, rfl, hc, heq⟩ | ⟨heq, _⟩
  · rw [heq]
    omega
  · rw [heq]
    have := (popContained_suffix id out).sublist.length_le
    simp only [List.length_cons]
    omega

/-- Joint invariant of the `normalize` stack pass over a sorted input: the
stack stays strictly descending, its entries come from the initial stack or
the input, and its length grows by at most one per input element. -/
theorem fold_main : ∀ (l out : List Nat), l.Pairwise (· ≤ ·) →
    out.Pairwise (fun a b => b < a) → (∀ e ∈ out, ∀ m ∈ l, e ≤ m) →
    (l.foldl addCell out).Pairwise (fun a b => b < a) ∧
      (∀ e ∈ l.foldl addCell out, e ∈ out ∨ e ∈ l) ∧
      (l.foldl addCell out).length ≤ out.length + l.length := by
  intro l
  induction l with
  | nil =>
    intro out _ hd _
    exact ⟨hd, fun e he => Or.inl he, by simp⟩
  | cons id tl ih =>
    intro out hl hd hb
    rw [List.foldl_cons]
    have hle : ∀ e ∈ out, e ≤ id := fun e he => hb e he id (List.mem_cons_self _ _)
    have hl' : tl.Pairwise (· ≤ ·) := (List.pairwise_cons.mp hl).2
    have hid_le : ∀ m ∈ tl, id ≤ m := (List.pairwise_cons.mp hl).1
    have hd' : (addCell out id).Pairwise (fun a b => b < a) :=
      addCell_strictDesc out id hd hle
    have hmem : ∀ e ∈ addCell out id, e ∈ out ∨ e = id := by
      intro e he
      rcases addCell_cases out id hle with ⟨t, rest, rfl, hc, heq⟩ | ⟨heq, _⟩
      · rw [heq] at he
        exact Or.inl he
      · rw [heq] at he
        rcases List.mem_cons.mp he with rfl | he'
        · exact Or.inr rfl
        · exact Or.inl ((popContained_suffix id out).sublist.mem he')
    have hb' : ∀ e ∈ addCell out id, ∀ m ∈ tl, e ≤ m := by
      intro e he m hm
      rcases hmem e he with h' | rfl
      · exact hb e h' m (List.mem_cons_of_mem _ hm)
      · exact hid_le m hm
    obtain ⟨c1, c2, c3⟩ := ih (addCell out id) hl' hd' hb'
    refine ⟨c1, ?_, ?_⟩
    · intro e he
      rcases c2 e he with h' | h'
      · rcases hmem e h' with h'' | rfl
        · exact Or.inl h''
        · exact Or.inr (List.mem_cons_self _ _)
      · exact Or.inr (List.mem_cons_of_mem _ h')
    · have := addCell_len out id hle
      simp only [List.length_cons]
      omega

/-- If the stack pass does not shrink the sequence at all, it reproduces the
sorted input (reversed, since the stack is kept head-first). -/
theorem fold_len_eq : ∀ (l out : List Nat), l.Pairwise (· ≤ ·) →
    out.Pairwise (fun a b => b < a) → (∀ e ∈ out, ∀ m ∈ l, e ≤ m) →
    (l.foldl addCell out).length = out.length + l.length →
    l.foldl addCell out = l.reverse ++ out := by
  intro l
  induction l with
  | nil =>
    intro out _ _ _ _
    simp
  | cons id tl ih =>
    intro out hl hd hb hlen
    rw [List.foldl_cons] at hlen ⊢
    have hle : ∀ e ∈ out, e ≤ id := fun e he => hb e he id (List.mem_cons_self _ _)
    have hl' : tl.Pairwise (· ≤ ·) := (List.pairwise_cons.mp hl).2
    have hid_le : ∀ m ∈ tl, id ≤ m := (List.pairwise_cons.mp hl).1
    have hd' : (addCell out id).Pairwise (fun a b => b < a) :=
      addCell_strictDesc out id hd hle
    have hb' : ∀ e ∈ addCell out id, ∀ m ∈ tl, e ≤ m := by
      intro e he m hm
      rcases addCell_cases out id hle with ⟨t, rest, rfl, hc, heq⟩ | ⟨heq, _⟩
      · rw [heq] at he
        exact hb e he m (List.mem_cons_of_mem _ hm)
      · rw [heq] at he
        rcases List.mem_cons.mp he with rfl | he'
        · exact hid_le m hm
        · exact hb e ((popContained_suffix id out).sublist.mem he') m
            (List.mem_cons_of_mem _ hm)
    have hup := (fold_main tl (addCell out id) hl' hd' hb').2.2
    rcases addCell_cases out id hle with ⟨t, rest, rfl, hc, heq⟩ | ⟨heq, _⟩
    · exfalso
      rw [heq] at hup hlen
      simp only [List.length_cons] at hlen hup
      omega
    · rw [heq] at hup hlen
      have hpople : (popContained id out).length ≤ out.length :=
        (popContained_suffix id out).sublist.length_le
      have hpop : popContained id out = out := by
        refine (popContained_suffix id out).sublist.eq_of_length ?_
        simp only [List.length_cons] at hup hlen
        omega
      rw [hpop] at hlen
      rw [heq, hpop] at hd' hb' ⊢
      have hlen' : (tl.foldl addCell (id :: out)).length = (id :: out).length + tl.length := by
        simp only [List.length_cons] at hlen ⊢
        omega
      rw [ih (id :: out) hl' hd' hb' hlen']
      simp

/-- On an input that is already strictly sorted with no mutual containment,
the stack pass is the identity. -/
theorem fold_fixed : ∀ (l out : List Nat),
    l.Pairwise (fun a b => a < b ∧ cellContains a b = false ∧ cellContains b a = false) →
    (∀ a ∈ out, ∀ b ∈ l, a < b ∧ cellContains a b = false ∧ cellContains b a = false) →
    l.foldl addCell out = l.reverse ++ out := by
  intro l
  induction l with
  | nil =>
    intro out _ _
    simp
  | cons id tl ih =>
    intro out hl hb
    rw [List.foldl_cons]
    have hstep : addCell out id = id :: out := by
      cases out with
      | nil => rfl
      | cons t rest =>
        obtain ⟨hlt, hcf, hcf'⟩ := hb t (List.mem_cons_self _ _) id (List.mem_cons_self _ _)
        show (if cellContains t id = true then t :: rest else pushStep (t :: rest) id) = _
        rw [if_neg (by rw [hcf]; exact Bool.false_ne_true), pushStep]
        have hpopeq : popContained id (t :: rest) = t :: rest := by
          rw [popContained, if_neg (by rw [hcf']; exact Bool.false_ne_true)]
        rw [hpopeq, collapse_triv _ _ (Or.inr ⟨t, rest, rfl, hlt⟩)]
    rw [hstep]
    have hl' := (List.pairwise_cons.mp hl).2
    have hidrel := (List.pairwise_cons.mp hl).1
    have hb' : ∀ a ∈ id :: out, ∀ b ∈ tl,
        a < b ∧ cellContains a b = false ∧ cellContains b a = false := by
      intro a ha b hbtl
      rcases List.mem_cons.mp ha with rfl | ha'
      · exact hidrel b hbtl
      · exact hb a ha' b (List.mem_cons_of_mem _ hbtl)
    rw [ih (id :: out) hl' hb']
    simp

theorem covList_cons (a : Nat) (l : List Nat) (v : Nat) :
    covList (a :: l) v ↔ (rangeMin a ≤ v ∧ v ≤ rangeMax a) ∨ covList l v := by
  simp [covList]

theorem covList_append (l1 l2 : List Nat) (v : Nat) :
    covList (l1 ++ l2) v ↔ covList l1 v ∨ covList l2 v := by
  constructor
  · rintro ⟨c, hc, h1, h2⟩
    rcases List.mem_append.mp hc with h | h
    · exact Or.inl ⟨c, h, h1, h2⟩
    · exact Or.inr ⟨c, h, h1, h2⟩
  · rintro (⟨c, hc, h1, h2⟩ | ⟨c, hc, h1, h2⟩)
    · exact ⟨c, List.mem_append.mpr (Or.inl hc), h1, h2⟩
    · exact ⟨c, List.mem_append.mpr (Or.inr hc), h1, h2⟩

theorem covList_nil (v : Nat) : ¬ covList [] v := by
  rintro ⟨c, hc, _⟩
  cases hc

/-- The stack pass preserves the covered set of curve positions. -/
theorem fold_cov : ∀ (l out : List Nat), l.Pairwise (· ≤ ·) →
    out.Pairwise (fun a b => b < a) → (∀ e ∈ out, ∀ m ∈ l, e ≤ m) →
    ∀ v, covList (l.foldl addCell out) v ↔ (covList out v ∨ covList l v) := by
  intro l
  induction l with
  | nil =>
    intro out _ _ _ v
    simp only [List.foldl_nil]
    exact ⟨fun h => Or.inl h, fun h => h.elim id fun h' => absurd h' (covList_nil v)⟩
  | cons id tl ih =>
    intro out hl hd hb v
    rw [List.foldl_cons]
    have hle : ∀ e ∈ out, e ≤ id := fun e he => hb e he id (List.mem_cons_self _ _)
    have hl' : tl.Pairwise (· ≤ ·) := (List.pairwise_cons.mp hl).2
    have hid_le : ∀ m ∈ tl, id ≤ m := (List.pairwise_cons.mp hl).1
    have hd' : (addCell out id).Pairwise (fun a b => b < a) :=
      addCell_strictDesc out id hd hle
    have hb' : ∀ e ∈ addCell out id, ∀ m ∈ tl, e ≤ m := by
      intro e he m hm
      rcases addCell_cases out id hle with ⟨t, rest, rfl, hc, heq⟩ | ⟨heq, _⟩
      · rw [heq] at he
        exact hb e he m (List.mem_cons_of_mem _ hm)
      · rw [heq] at he
        rcases List.mem_cons.mp he with rfl | he'
        · exact hid_le m hm
        · exact hb e ((popContained_suffix id out).sublist.mem he') m
            (List.mem_cons_of_mem _ hm)
    rw [ih (addCell out id) hl' hd' hb' v, covList_cons]
    rcases addCell_cases out id hle with ⟨t, rest, rfl, hc, heq⟩ | ⟨heq, _⟩
    · rw [heq]
      constructor
      · rintro (h | h)
        · exact Or.inl h
        · exact Or.inr (Or.inr h)
      · rintro (h | h | h)
        · exact Or.inl h
        · refine Or.inl ((covList_cons t rest v).mpr (Or.inl ?_))
          exact contains_span t id v hc h.1 h.2
        · exact Or.inr h
    · rw [heq]
      obtain ⟨dropped, hsplit, hdropped⟩ := popContained_split id out
      have hout : ∀ w, covList out w ↔ covList dropped w ∨ covList (popContained id out) w := by
        intro w
        conv_lhs => rw [hsplit]
        exact covList_append _ _ w
      rw [covList_cons, hout]
      constructor
      · rintro ((h | h) | h)
        · exact Or.inr (Or.inl h)
        · exact Or.inl (Or.inr h)
        · exact Or.inr (Or.inr h)
      · rintro ((h | h) | h | h)
        · obtain ⟨c, hc, h1, h2⟩ := h
          exact Or.inl (Or.inl (contains_span id c v (hdropped c hc) h1 h2))
        · exact Or.inl (Or.inr h)
        · exact Or.inl (Or.inl h)
        · exact Or.inr h

/-- Relation held pairwise by the stack (head = most recent): strictly
descending, no containment in either direction. -/
def StackRel (a b : Nat) : Prop :=
  b < a ∧ cellContains a b = false ∧ cellContains b a = false

/-- After the pop loop, the pushed candidate relates by `StackRel` to every
surviving stack entry: none of them contains the candidate or is contained by
it.  This is where laminarity of well-formed cells is used. -/
theorem push_nocontain (out : List Nat) (id : Nat)
    (hpw : out.Pairwise StackRel) (hv : ∀ e ∈ out, validCell e) (hid : validCell id)
    (hle : ∀ e ∈ out, e ≤ id)
    (hdrop : out = [] ∨ ∃ t rest, out = t :: rest ∧ cellContains t id = false) :
    ∀ f ∈ popContained id out, StackRel id f := by
  intro f hf
  rcases hp : popContained id out with _ | ⟨p, ps⟩
  · rw [hp] at hf
    cases hf
  · rw [hp] at hf
    have hsuffix := popContained_suffix id out
    rw [hp] at hsuffix
    have hpf : cellContains id p = false := popContained_head id out p ps hp
    have hpmem : p ∈ out := hsuffix.sublist.mem (List.mem_cons_self _ _)
    have hple : p ≤ id := hle p hpmem
    have hpne : p ≠ id := by
      intro h'
      rw [h', contains_refl id] at hpf
      cases hpf
    have hplt : p < id := by omega
    have hppw : (p :: ps).Pairwise StackRel := List.Pairwise.sublist hsuffix.sublist hpw
    have hpvalid : validCell p := hv p hpmem
    have hpid : cellContains p id = false := by
      by_contra h
      rw [Bool.not_eq_false] at h
      rcases hdrop with rfl | ⟨t, rest, hteq, htf⟩
      · cases hpmem
      · obtain ⟨dropped, hsp, hdc⟩ := popContained_split id out
        rw [hp] at hsp
        cases dropped with
        | nil =>
          have hpt : t = p := by
            rw [hteq] at hsp
            simp at hsp
            exact hsp.1
          rw [hpt] at htf
          rw [htf] at h
          cases h
        | cons d ds =>
          have hdcont : cellContains id d = true := hdc d (List.mem_cons_self _ _)
          have hdp : StackRel d p := by
            rw [hsp] at hpw
            have := (List.pairwise_cons.mp hpw).1
            exact this p (by simp)
          have hct : cellContains p d = true := contains_trans p id d h hdcont
          obtain ⟨_, _, h3d⟩ := hdp
          rw [hct] at h3d
          cases h3d
    rcases List.mem_cons.mp hf with rfl | hf'
    · exact ⟨hplt, hpf, hpid⟩
    · obtain ⟨hflt, hcpf, hcfp⟩ := (List.pairwise_cons.mp hppw).1 f hf'
      have hfmem : f ∈ out := hsuffix.sublist.mem (List.mem_cons_of_mem _ hf')
      have hfvalid : validCell f := hv f hfmem
      have hfc := valid_center f hfvalid
      have hic := valid_center id hid
      have hidf : cellContains id f = false := by
        by_contra h
        rw [Bool.not_eq_false] at h
        have hspan := (contains_iff id f).mp h
        have h1 : rangeMin id ≤ p := by omega
        have h2 : p ≤ rangeMax id := by omega
        have := center_in_contains p id hpvalid hid h1 h2
        rw [this] at hpf
        cases hpf
      have hfid : cellContains f id = false := by
        by_contra h
        rw [Bool.not_eq_false] at h
        have hspan := (contains_iff f id).mp h
        have h1 : rangeMin f ≤ p := by omega
        have h2 : p ≤ rangeMax f := by omega
        have := center_in_contains p f hpvalid hfvalid h1 h2
        rw [this] at hcfp
        cases hcfp
      exact ⟨by omega, hidf, hfid⟩

/-- The stack pass keeps entries mutually non-containing and well-formed. -/
theorem fold_nocontain : ∀ (l out : List Nat), l.Pairwise (· ≤ ·) →
    (∀ c ∈ l, validCell c) → out.Pairwise StackRel → (∀ e ∈ out, validCell e) →
    (∀ e ∈ out, ∀ m ∈ l, e ≤ m) →
    (l.foldl addCell out).Pairwise StackRel ∧
      ∀ e ∈ l.foldl addCell out, validCell e := by
  intro l
  induction l with
  | nil =>
    intro out _ _ hpw hov _
    exact ⟨hpw, hov⟩
  | cons id tl ih =>
    intro out hl hlv hpw hov hb
    rw [List.foldl_cons]
    have hle : ∀ e ∈ out, e ≤ id := fun e he => hb e he id (List.mem_cons_self _ _)
    have hl' : tl.Pairwise (· ≤ ·) := (List.pairwise_cons.mp hl).2
    have hid_le : ∀ m ∈ tl, id ≤ m := (List.pairwise_cons.mp hl).1
    have hlv' : ∀ c ∈ tl, validCell c := fun c hc => hlv c (List.mem_cons_of_mem _ hc)
    have hidv : validCell id := hlv id (List.mem_cons_self _ _)
    have hmem : ∀ e ∈ addCell out id, e ∈ out ∨ e = id := by
      intro e he
      rcases addCell_cases out id hle with ⟨t, rest, rfl, hc, heq⟩ | ⟨heq, _⟩
      · rw [heq] at he
        exact Or.inl he
      · rw [heq] at he
        rcases List.mem_cons.mp he with rfl | he'
        · exact Or.inr rfl
        · exact Or.inl ((popContained_suffix id out).sublist.mem he')
    have hb' : ∀ e ∈ addCell out id, ∀ m ∈ tl, e ≤ m := by
      intro e he m hm
      rcases hmem e he with h' | rfl
      · exact hb e h' m (List.mem_cons_of_mem _ hm)
      · exact hid_le m hm
    have hov' : ∀ e ∈ addCell out id, validCell e := by
      intro e he
      rcases hmem e he with h' | rfl
      · exact hov e h'
      · exact hidv
    have hpw' : (addCell out id).Pairwise StackRel := by
      rcases addCell_cases out id hle with ⟨t, rest, rfl, hc, heq⟩ | ⟨heq, hdrop⟩
      · rw [heq]
        exact hpw
      · rw [heq]
        refine List.pairwise_cons.mpr ⟨?_, ?_⟩
        · exact push_nocontain out id hpw hov hidv hle hdrop
        · exact List.Pairwise.sublist (popContained_suffix id out).sublist hpw
    exact ih (addCell out id) hl' hlv' hpw' hov' hb'

/- ---------------------------------------------------------------------
   normalize(): top-level facts
   --------------------------------------------------------------------- -/

theorem normalizeList_eq (l : List Nat) :
    normalizeList l =
      if ((sortCells l).foldl addCell []).length < l.length
      then (((sortCells l).foldl addCell []).reverse, true)
      else (sortCells l, false) := rfl

theorem sortCells_pairwise (l : List Nat) : (sortCells l).Pairwise (· ≤ ·) :=
  List.sorted_insertionSort (· ≤ ·) l

theorem sortCells_perm (l : List Nat) : (sortCells l).Perm l :=
  List.perm_insertionSort _ l

theorem sortCells_length (l : List Nat) : (sortCells l).length = l.length :=
  (sortCells_perm l).length_eq

theorem sortCells_mem (l : List Nat) (a : Nat) : a ∈ sortCells l ↔ a ∈ l :=
  List.mem_insertionSort _

theorem sortCells_of_sorted (l : List Nat) (h : l.Pairwise (· < ·)) :
    sortCells l = l :=
  List.Sorted.insertionSort_eq (h.imp le_of_lt)

theorem covList_reverse (l : List Nat) (v : Nat) :
    covList l.reverse v ↔ covList l v := by
  unfold covList
  constructor
  · rintro ⟨c, hc, h⟩
    exact ⟨c, List.mem_reverse.mp hc, h⟩
  · rintro ⟨c, hc, h⟩
    exact ⟨c, List.mem_reverse.mpr hc, h⟩

theorem covList_perm (l l' : List Nat) (hp : l.Perm l') (v : Nat) :
    covList l v ↔ covList l' v := by
  unfold covList
  constructor
  · rintro ⟨c, hc, h⟩
    exact ⟨c, hp.mem_iff.mp hc, h⟩
  · rintro ⟨c, hc, h⟩
    exact ⟨c, hp.mem_iff.mpr hc, h⟩

/-- After any `normalize()` call the stored sequence is strictly ascending. -/
theorem normalize_sorted (l : List Nat) : ((normalizeList l).1).Pairwise (· < ·) := by
  rw [normalizeList_eq]
  have hs := sortCells_pairwise l
  obtain ⟨hdesc, _, hlen⟩ := fold_main (sortCells l) [] hs (by simp) (by simp)
  by_cases h : ((sortCells l).foldl addCell []).length < l.length
  · rw [if_pos h]
    simp only
    rw [List.pairwise_reverse]
    exact hdesc
  · rw [if_neg h]
    simp only
    have hleq : ((sortCells l).foldl addCell []).length = ([] : List Nat).length + (sortCells l).length := by
      simp only [List.length_nil, Nat.zero_add]
      have h1 := sortCells_length l
      simp only [List.length_nil, Nat.zero_add] at hlen
      omega
    have hrev := fold_len_eq (sortCells l) [] hs (by simp) (by simp) hleq
    rw [List.append_nil] at hrev
    have : sortCells l = ((sortCells l).foldl addCell []).reverse := by
      rw [hrev, List.reverse_reverse]
    rw [this, List.pairwise_reverse]
    exact hdesc

/-- `normalize()` preserves the covered set of curve positions. -/
theorem normalize_cov (l : List Nat) (v : Nat) :
    covList (normalizeList l).1 v ↔ covList l v := by
  have hs := sortCells_pairwise l
  have hcov := fold_cov (sortCells l) [] hs (by simp) (by simp) v
  have hsl : covList (sortCells l) v ↔ covList l v := covList_perm _ _ (sortCells_perm l) v
  rw [normalizeList_eq]
  by_cases h : ((sortCells l).foldl addCell []).length < l.length
  · rw [if_pos h]
    simp only
    rw [covList_reverse, hcov, hsl]
    constructor
    · rintro (h' | h')
      · exact absurd h' (covList_nil v)
      · exact h'
    · exact Or.inr
  · rw [if_neg h]
    simp only
    exact hsl

/-- `normalize()` on a strictly sorted sequence with no mutual containment is
the identity and reports no reduction. -/
theorem normalize_fixed (l : List Nat) (h1 : l.Pairwise (· < ·)) (h2 : NoContainL l) :
    normalizeList l = (l, false) := by
  have hsort : sortCells l = l := sortCells_of_sorted l h1
  have hl3 : l.Pairwise (fun a b => a < b ∧ cellContains a b = false ∧
      cellContains b a = false) := by
    have := List.Pairwise.and h1 h2
    exact this.imp fun h => ⟨h.1, h.2.1, h.2.2⟩
  have hfold := fold_fixed l [] hl3 (by simp)
  rw [List.append_nil] at hfold
  rw [normalizeList_eq, hsort, hfold]
  rw [if_neg (by simp)]

/-- `normalize()` reports a reduction exactly when the stored sequence got
shorter. -/
theorem normalize_flag_iff (l : List Nat) :
    (normalizeList l).2 = true ↔ ((normalizeList l).1).length < l.length := by
  rw [normalizeList_eq]
  by_cases h : ((sortCells l).foldl addCell []).length < l.length
  · rw [if_pos h]
    simpa using h
  · rw [if_neg h]
    simp [sortCells_length]

/-- The sequence stored by `normalize()` satisfies invariants 1-2 and keeps
all entries well-formed when the input is well-formed. -/
theorem normalize_good (l : List Nat) (hv : ∀ c ∈ l, validCell c) :
    ((normalizeList l).1).Pairwise (· < ·) ∧ NoContainL ((normalizeList l).1) ∧
      ∀ e ∈ (normalizeList l).1, validCell e := by
  refine ⟨normalize_sorted l, ?_⟩
  have hs := sortCells_pairwise l
  have hsv : ∀ c ∈ sortCells l, validCell c := fun c hc =>
    hv c ((sortCells_mem l c).mp hc)
  obtain ⟨hpw, hav⟩ := fold_nocontain (sortCells l) [] hs hsv (by simp) (by simp) (by simp)
  have hrevnc : NoContainL (((sortCells l).foldl addCell []).reverse) := by
    unfold NoContainL
    rw [List.pairwise_reverse]
    exact hpw.imp fun h => ⟨h.2.2, h.2.1⟩
  rw [normalizeList_eq]
  by_cases h : ((sortCells l).foldl addCell []).length < l.length
  · rw [if_pos h]
    refine ⟨hrevnc, ?_⟩
    intro e he
    exact hav e (List.mem_reverse.mp he)
  · rw [if_neg h]
    simp only
    obtain ⟨_, _, hlen⟩ := fold_main (sortCells l) [] hs (by simp) (by simp)
    have hleq : ((sortCells l).foldl addCell []).length = ([] : List Nat).length + (sortCells l).length := by
      simp only [List.length_nil, Nat.zero_add]
      have h1 := sortCells_length l
      simp only [List.length_nil, Nat.zero_add] at hlen
      omega
    have hrev := fold_len_eq (sortCells l) [] hs (by simp) (by simp) hleq
    rw [List.append_nil] at hrev
    have heq2 : sortCells l = ((sortCells l).foldl addCell []).reverse := by
      rw [hrev, List.reverse_reverse]
    rw [heq2]
    refine ⟨hrevnc, ?_⟩
    intro e he
    exact hav e (List.mem_reverse.mp he)

/- ---------------------------------------------------------------------
   Binary-search containment on a normalized union
   --------------------------------------------------------------------- -/

/-- Spans strictly ordered along the sequence: each entry's span ends before
the next begins.  This is the working form of "normalized". -/
def OrdDisj (l : List Nat) : Prop := l.Pairwise (fun a b => rangeMax a < rangeMin b)

theorem ordDisj_of_normalized (l : List Nat) (h1 : l.Pairwise (· < ·))
    (h2 : NoContainL l) (h3 : AllValid l) : OrdDisj l := by
  unfold OrdDisj
  refine List.Pairwise.imp_of_mem ?_ (List.Pairwise.and h1 h2)
  intro a b ha hb hr
  exact disjoint_ordered a b (h3 a ha) (h3 b hb) hr.1 hr.2.1 hr.2.2

theorem findIdx_lt_bound (l : List Nat) (v i : Nat) (hi : i < l.length)
    (h : i < bsearchPos l v) : l[i] < v := by
  have := List.not_of_lt_findIdx h
  simp only [decide_eq_false_iff_not, not_le] at this
  exact this

theorem findIdx_ge_at (l : List Nat) (v : Nat) (h : bsearchPos l v < l.length) :
    v ≤ l[bsearchPos l v] := by
  have := List.findIdx_getElem (w := h)
  simpa using this

/-- Correctness of the source's `contains(id)` binary search on a strictly
ordered, well-formed union: it answers exactly whether some entry's span
holds the value. -/
theorem containsB_correct (l : List Nat) (hd : OrdDisj l) (hv : AllValid l) (v : Nat) :
    containsB l v = true ↔ covList l v := by
  have hdisj : ∀ i j (hi : i < l.length) (hj : j < l.length), i < j →
      rangeMax l[i] < rangeMin l[j] := by
    intro i j hi hj hij
    exact List.pairwise_iff_getElem.mp hd i j hi hj hij
  have hposle : bsearchPos l v ≤ l.length := List.findIdx_le_length _
  simp only [containsB, Bool.or_eq_true, Bool.and_eq_true, decide_eq_true_eq]
  constructor
  · rintro (⟨hlt, hmin⟩ | ⟨hne, hmax⟩)
    · rw [List.getD_eq_getElem l 0 hlt] at hmin
      refine ⟨l[bsearchPos l v], List.getElem_mem hlt, hmin, ?_⟩
      have hcv := valid_center _ (hv _ (List.getElem_mem hlt))
      have := findIdx_ge_at l v hlt
      omega
    · have hplt : bsearchPos l v - 1 < l.length := by omega
      rw [List.getD_eq_getElem l 0 hplt] at hmax
      refine ⟨l[bsearchPos l v - 1], List.getElem_mem hplt, ?_, hmax⟩
      have hcv := valid_center _ (hv _ (List.getElem_mem hplt))
      have hlow := findIdx_lt_bound l v _ hplt (by omega)
      omega
  · rintro ⟨c, hc, h1, h2⟩
    obtain ⟨k, hk, rfl⟩ := List.mem_iff_getElem.mp hc
    have hcv := valid_center _ (hv _ (List.getElem_mem hk))
    rcases Nat.lt_or_ge l[k] v with hkv | hkv
    · -- entry strictly before the value: it must sit right below the
      -- insertion point
      have hkpos : k < bsearchPos l v := by
        by_contra hcon
        push_neg at hcon
        have hplt : bsearchPos l v < l.length := by omega
        have hvp := findIdx_ge_at l v hplt
        rcases Nat.eq_or_lt_of_le hcon with heq | hlt
        · subst heq
          omega
        · have := hdisj _ _ hplt hk hlt
          have hcvp := valid_center _ (hv _ (List.getElem_mem hplt))
          omega
      have hne : bsearchPos l v ≠ 0 := by omega
      have hplt : bsearchPos l v - 1 < l.length := by omega
      rcases Nat.eq_or_lt_of_le (by omega : k ≤ bsearchPos l v - 1) with heq | hlt
      · right
        refine ⟨hne, ?_⟩
        rw [List.getD_eq_getElem l 0 hplt]
        subst heq
        exact h2
      · exfalso
        have := hdisj _ _ hk hplt hlt
        have hlow := findIdx_lt_bound l v _ hplt (by omega)
        have hcvp := valid_center _ (hv _ (List.getElem_mem hplt))
        omega
    · -- value at or below the entry: the insertion point lands on it
      have hkpos : bsearchPos l v ≤ k := by
        by_contra hcon
        push_neg at hcon
        have := findIdx_lt_bound l v k hk hcon
        omega
      have hplt : bsearchPos l v < l.length := by omega
      left
      refine ⟨hplt, ?_⟩
      rw [List.getD_eq_getElem l 0 hplt]
      rcases Nat.eq_or_lt_of_le hkpos with heq | hlt
      · subst heq
        exact h1
      · exfalso
        have := hdisj _ _ hplt hk hlt
        have hvp := findIdx_ge_at l v hplt
        have hcvp := valid_center _ (hv _ (List.getElem_mem hplt))
        omega

/- ---------------------------------------------------------------------
   Index-level facts used by the intersection merge
   --------------------------------------------------------------------- -/

theorem ordDisj_getD (l : List Nat) (hd : OrdDisj l) (i j : Nat)
    (hij : i < j) (hj : j < l.length) :
    rangeMax (l.getD i 0) < rangeMin (l.getD j 0) := by
  have hi : i < l.length := by omega
  rw [List.getD_eq_getElem l 0 hi, List.getD_eq_getElem l 0 hj]
  exact List.pairwise_iff_getElem.mp hd i j hi hj hij

theorem getD_mem (l : List Nat) (k : Nat) (hk : k < l.length) : l.getD k 0 ∈ l := by
  rw [List.getD_eq_getElem l 0 hk]
  exact List.getElem_mem hk

theorem ordDisj_noContain (l : List Nat) (hd : OrdDisj l) (hv : AllValid l) :
    NoContainL l := by
  unfold NoContainL
  refine List.Pairwise.imp_of_mem ?_ hd
  intro a b ha hb hr
  have hca := valid_center a (hv a ha)
  have hcb := valid_center b (hv b hb)
  constructor
  · rw [contains_false_iff]
    omega
  · rw [contains_false_iff]
    omega

theorem ordDisj_strictAsc (l : List Nat) (hd : OrdDisj l) (hv : AllValid l) :
    l.Pairwise (· < ·) := by
  refine List.Pairwise.imp_of_mem ?_ hd
  intro a b ha hb hr
  have hca := valid_center a (hv a ha)
  have hcb := valid_center b (hv b hb)
  omega

theorem drop_head (l : List Nat) (i : Nat) (hi : i < l.length) :
    l.drop i = l.getD i 0 :: l.drop (i + 1) := by
  rw [List.getD_eq_getElem l 0 hi]
  exact List.drop_eq_getElem_cons hi

theorem mem_drop_decomp (l : List Nat) (i : Nat) (a : Nat) (h : a ∈ l.drop i) :
    ∃ k, i ≤ k ∧ k < l.length ∧ a = l.getD k 0 := by
  obtain ⟨m, hm, he⟩ := List.mem_iff_getElem.mp h
  have hml : i + m < l.length := by
    have := List.length_drop i l
    omega
  refine ⟨i + m, by omega, hml, ?_⟩
  rw [List.getD_eq_getElem l 0 hml, ← List.getElem_drop l, he]

theorem getD_mem_drop (l : List Nat) (i k : Nat) (h1 : i ≤ k) (h2 : k < l.length) :
    l.getD k 0 ∈ l.drop i := by
  have hm : k - i < (l.drop i).length := by
    rw [List.length_drop]
    omega
  rw [List.mem_iff_getElem]
  refine ⟨k - i, hm, ?_⟩
  rw [List.getElem_drop l]
  simp only [show i + (k - i) = k from by omega]
  rw [List.getD_eq_getElem l 0 h2]

theorem drop_mono_mem (l : List Nat) (i j : Nat) (hij : i ≤ j) (a : Nat)
    (h : a ∈ l.drop j) : a ∈ l.drop i := by
  obtain ⟨k, hk1, hk2, rfl⟩ := mem_drop_decomp l j a h
  exact getD_mem_drop l i k (by omega) hk2

theorem drop_head_rel (l : List Nat) (hd : OrdDisj l) (i : Nat) (_hi : i < l.length) :
    ∀ a ∈ l.drop (i + 1), rangeMax (l.getD i 0) < rangeMin a := by
  intro a ha
  obtain ⟨k, hk1, hk2, rfl⟩ := mem_drop_decomp l (i + 1) a ha
  exact ordDisj_getD l hd i k (by omega) hk2

theorem ibsearch_ge (l : List Nat) (t low : Nat) : low ≤ ibsearch l t low :=
  Nat.le_add_right _ _

theorem ibsearch_le_len (l : List Nat) (t low : Nat) (h : low ≤ l.length) :
    ibsearch l t low ≤ l.length := by
  unfold ibsearch
  have h1 : List.findIdx (fun c => decide (t ≤ c)) (l.drop low) ≤ (l.drop low).length :=
    List.findIdx_le_length _
  rw [List.length_drop] at h1
  omega

theorem ibsearch_lt (l : List Nat) (t low k : Nat) (h1 : low ≤ k)
    (h2 : k < ibsearch l t low) (h3 : k < l.length) : l.getD k 0 < t := by
  unfold ibsearch at h2
  have hlen : k - low < (l.drop low).length := by
    rw [List.length_drop]
    omega
  have hk : k - low < List.findIdx (fun c => decide (t ≤ c)) (l.drop low) := by omega
  have hfd := List.not_of_lt_findIdx hk
  rw [List.getElem_drop l] at hfd
  simp only [decide_eq_false_iff_not, not_le] at hfd
  rw [List.getD_eq_getElem l 0 h3]
  have heq : low + (k - low) = k := by omega
  simp only [heq] at hfd
  exact hfd

/-- Two well-formed cells whose spans start together nest toward the smaller
raw value. -/
theorem equalMin_contains (a b : Nat) (ha : validCell a) (hb : validCell b)
    (hmin : rangeMin a = rangeMin b) (hab : a ≤ b) : cellContains b a = true := by
  obtain ⟨k, t, hk, hsa, hla, _⟩ := valid_destruct a ha
  obtain ⟨k', u, hk', hsb, hlb, _⟩ := valid_destruct b hb
  have hpa : (0 : Nat) < 4 ^ k := Nat.pos_pow_of_pos _ (by omega)
  have hpb : (0 : Nat) < 4 ^ k' := Nat.pos_pow_of_pos _ (by omega)
  rw [contains_iff]
  rw [rangeMin_of_struct a k t hsa hla, rangeMin_of_struct b k' u hsb hlb] at hmin ⊢
  rw [rangeMax_of_struct a k t hsa hla, rangeMax_of_struct b k' u hsb hlb]
  omega

/- ---------------------------------------------------------------------
   Coverage correctness of the intersection merge
   --------------------------------------------------------------------- -/

/-- Entries of `y` skipped by the merge's binary-search jump — those whose
span starts before the current `x` entry's span and ends before its raw
value — are disjoint from every remaining `x` entry, so dropping them does
not change the intersection of the two covered sets. -/
theorem skip_cov_eq (x y : List Nat) (hdx : OrdDisj x) (hvx : AllValid x)
    (hvy : AllValid y) (i j j' : Nat) (hix : i < x.length) (hj' : j ≤ j')
    (hskip : ∀ k, j ≤ k → k < j' → k < y.length →
      rangeMin (y.getD k 0) < rangeMin (x.getD i 0) ∧
        rangeMax (y.getD k 0) < x.getD i 0)
    (v : Nat) :
    (covList (x.drop i) v ∧ covList (y.drop j) v) ↔
      (covList (x.drop i) v ∧ covList (y.drop j') v) := by
  constructor
  · rintro ⟨hx, hy⟩
    refine ⟨hx, ?_⟩
    obtain ⟨c, hc, hc1, hc2⟩ := hy
    obtain ⟨k, hk1, hk2, rfl⟩ := mem_drop_decomp y j c hc
    rcases Nat.lt_or_ge k j' with hkj | hkj
    · exfalso
      obtain ⟨hP1, hP2⟩ := hskip k hk1 hkj hk2
      obtain ⟨a, ha, ha1, ha2⟩ := hx
      obtain ⟨m, hm1, hm2, rfl⟩ := mem_drop_decomp x i a ha
      have hav : validCell (x.getD m 0) := hvx _ (getD_mem x m hm2)
      have hkv : validCell (y.getD k 0) := hvy _ (getD_mem y k hk2)
      have hxiv : validCell (x.getD i 0) := hvx _ (getD_mem x i hix)
      have hxic := valid_center _ hxiv
      have hac := valid_center _ hav
      have hkc := valid_center _ hkv
      rcases Nat.eq_or_lt_of_le hm1 with heq | hmi
      · subst heq
        rcases overlap_nested _ _ v hav hkv ha1 ha2 hc1 hc2 with hcase | hcase
        · have := (contains_iff _ _).mp hcase
          omega
        · have := (contains_iff _ _).mp hcase
          omega
      · have hrel : rangeMax (x.getD i 0) < rangeMin (x.getD m 0) :=
          ordDisj_getD x hdx i m hmi hm2
        rcases overlap_nested _ _ v hav hkv ha1 ha2 hc1 hc2 with hcase | hcase
        · have := (contains_iff _ _).mp hcase
          omega
        · have := (contains_iff _ _).mp hcase
          omega
    · exact ⟨y.getD k 0, getD_mem_drop y j' k hkj hk2, hc1, hc2⟩
  · rintro ⟨hx, hy⟩
    obtain ⟨c, hc, h⟩ := hy
    exact ⟨hx, c, drop_mono_mem y j j' hj' c hc, h⟩

/-- The merge loop of `getIntersectionUU` emits a cover of exactly the
intersection of the two remaining covered sets. -/
theorem interF_cov : ∀ (fuel : Nat) (x y : List Nat), OrdDisj x → AllValid x →
    OrdDisj y → AllValid y → ∀ i j, x.length - i + (y.length - j) ≤ fuel →
    ∀ v, covList (interF x y fuel i j) v ↔
      (covList (x.drop i) v ∧ covList (y.drop j) v) := by
  intro fuel
  induction fuel with
  | zero =>
    intro x y _ _ _ _ i j hm v
    constructor
    · intro h
      exact absurd h (covList_nil v)
    · rintro ⟨⟨c, hc, _⟩, _⟩
      rw [List.drop_eq_nil_of_le (by omega)] at hc
      cases hc
  | succ fuel ih =>
    intro x y hdx hvx hdy hvy i j hm v
    by_cases hij : i < x.length ∧ j < y.length
    case neg =>
      have hnil : interF x y (fuel + 1) i j = [] := by
        simp only [interF, if_neg hij]
      rw [hnil]
      constructor
      · intro h
        exact absurd h (covList_nil v)
      · rintro ⟨⟨c, hc, _⟩, ⟨c', hc', _⟩⟩
        rcases not_and_or.mp hij with h1 | h1
        · rw [List.drop_eq_nil_of_le (by omega)] at hc
          cases hc
        · rw [List.drop_eq_nil_of_le (by omega)] at hc'
          cases hc'
    case pos =>
      obtain ⟨hix, hjy⟩ := hij
      have hxiv : validCell (x.getD i 0) := hvx _ (getD_mem x i hix)
      have hyjv : validCell (y.getD j 0) := hvy _ (getD_mem y j hjy)
      have hxic := valid_center _ hxiv
      have hyjc := valid_center _ hyjv
      have hcovx : ∀ w, covList (x.drop i) w ↔
          ((rangeMin (x.getD i 0) ≤ w ∧ w ≤ rangeMax (x.getD i 0)) ∨
            covList (x.drop (i + 1)) w) := by
        intro w
        rw [drop_head x i hix, covList_cons]
      have hcovy : ∀ w, covList (y.drop j) w ↔
          ((rangeMin (y.getD j 0) ≤ w ∧ w ≤ rangeMax (y.getD j 0)) ∨
            covList (y.drop (j + 1)) w) := by
        intro w
        rw [drop_head y j hjy, covList_cons]
      simp only [interF, if_pos (And.intro hix hjy)]
      by_cases hb1 : rangeMin (y.getD j 0) < rangeMin (x.getD i 0)
      · rw [if_pos hb1]
        by_cases hb2 : x.getD i 0 ≤ rangeMax (y.getD j 0)
        · -- the current x entry is inside the current y entry: emit it
          rw [if_pos hb2]
          have hcont : cellContains (y.getD j 0) (x.getD i 0) = true :=
            center_in_contains _ _ hxiv hyjv (by omega) hb2
          have hcs := (contains_iff _ _).mp hcont
          rw [covList_cons, ih x y hdx hvx hdy hvy (i + 1) j (by omega) v]
          constructor
          · rintro (h | ⟨h1, h2⟩)
            · exact ⟨(hcovx v).mpr (Or.inl h), (hcovy v).mpr (Or.inl ⟨by omega, by omega⟩)⟩
            · exact ⟨(hcovx v).mpr (Or.inr h1), h2⟩
          · rintro ⟨h1, h2⟩
            rcases (hcovx v).mp h1 with h1' | h1'
            · exact Or.inl h1'
            · exact Or.inr ⟨h1', h2⟩
        · -- disjoint: jump the y cursor past all entries ending before x's
          rw [if_neg hb2]
          push_neg at hb2
          have hjn_ge : j + 1 ≤ ibsearch y (rangeMin (x.getD i 0)) (j + 1) :=
            ibsearch_ge y _ (j + 1)
          have hjn_le : ibsearch y (rangeMin (x.getD i 0)) (j + 1) ≤ y.length :=
            ibsearch_le_len y _ (j + 1) (by omega)
          by_cases hb3 : x.getD i 0 ≤
              rangeMax (y.getD (ibsearch y (rangeMin (x.getD i 0)) (j + 1) - 1) 0)
          · rw [if_pos hb3]
            -- the entry just below the landing point still reaches x: keep it
            have hjn2 : j + 2 ≤ ibsearch y (rangeMin (x.getD i 0)) (j + 1) := by
              by_contra hcon
              push_neg at hcon
              have heq : ibsearch y (rangeMin (x.getD i 0)) (j + 1) - 1 = j := by omega
              rw [heq] at hb3
              omega
            have hskip : ∀ k, j ≤ k →
                k < ibsearch y (rangeMin (x.getD i 0)) (j + 1) - 1 → k < y.length →
                rangeMin (y.getD k 0) < rangeMin (x.getD i 0) ∧
                  rangeMax (y.getD k 0) < x.getD i 0 := by
              intro k hk1 hk2 hk3
              rcases Nat.eq_or_lt_of_le hk1 with rfl | hk1'
              · exact ⟨hb1, by omega⟩
              · have hlt := ibsearch_lt y (rangeMin (x.getD i 0)) (j + 1) k
                  (by omega) (by omega) hk3
                have hkc := valid_center _ (hvy _ (getD_mem y k hk3))
                have hjn1lt := ibsearch_lt y (rangeMin (x.getD i 0)) (j + 1)
                  (ibsearch y (rangeMin (x.getD i 0)) (j + 1) - 1)
                  (by omega) (by omega) (by omega)
                have hjn1c := valid_center _
                  (hvy _ (getD_mem y (ibsearch y (rangeMin (x.getD i 0)) (j + 1) - 1)
                    (by omega)))
                have hord := ordDisj_getD y hdy k
                  (ibsearch y (rangeMin (x.getD i 0)) (j + 1) - 1) (by omega) (by omega)
                omega
            rw [ih x y hdx hvx hdy hvy i
              (ibsearch y (rangeMin (x.getD i 0)) (j + 1) - 1) (by omega) v]
            exact (skip_cov_eq x y hdx hvx hvy i j _ hix (by omega) hskip v).symm
          · rw [if_neg hb3]
            push_neg at hb3
            have hskip : ∀ k, j ≤ k →
                k < ibsearch y (rangeMin (x.getD i 0)) (j + 1) → k < y.length →
                rangeMin (y.getD k 0) < rangeMin (x.getD i 0) ∧
                  rangeMax (y.getD k 0) < x.getD i 0 := by
              intro k hk1 hk2 hk3
              rcases Nat.eq_or_lt_of_le hk1 with rfl | hk1'
              · exact ⟨hb1, by omega⟩
              · have hlt := ibsearch_lt y (rangeMin (x.getD i 0)) (j + 1) k
                  (by omega) hk2 hk3
                have hkc := valid_center _ (hvy _ (getD_mem y k hk3))
                refine ⟨by omega, ?_⟩
                rcases Nat.eq_or_lt_of_le
                    (by omega : k ≤ ibsearch y (rangeMin (x.getD i 0)) (j + 1) - 1)
                  with heq | hk2'
                · rw [heq]
                  exact hb3
                · have hjn1c := valid_center _
                    (hvy _ (getD_mem y (ibsearch y (rangeMin (x.getD i 0)) (j + 1) - 1)
                      (by omega)))
                  have hord := ordDisj_getD y hdy k
                    (ibsearch y (rangeMin (x.getD i 0)) (j + 1) - 1) (by omega) (by omega)
                  omega
            rw [ih x y hdx hvx hdy hvy i
              (ibsearch y (rangeMin (x.getD i 0)) (j + 1)) (by omega) v]
            exact (skip_cov_eq x y hdx hvx hvy i j _ hix (by omega) hskip v).symm
      · rw [if_neg hb1]
        by_cases hb1' : rangeMin (x.getD i 0) < rangeMin (y.getD j 0)
        · rw [if_pos hb1']
          by_cases hb2 : y.getD j 0 ≤ rangeMax (x.getD i 0)
          · -- mirror case: the current y entry is inside the current x entry
            rw [if_pos hb2]
            have hcont : cellContains (x.getD i 0) (y.getD j 0) = true :=
              center_in_contains _ _ hyjv hxiv (by omega) hb2
            have hcs := (contains_iff _ _).mp hcont
            rw [covList_cons, ih x y hdx hvx hdy hvy i (j + 1) (by omega) v]
            constructor
            · rintro (h | ⟨h1, h2⟩)
              · exact ⟨(hcovx v).mpr (Or.inl ⟨by omega, by omega⟩), (hcovy v).mpr (Or.inl h)⟩
              · exact ⟨h1, (hcovy v).mpr (Or.inr h2)⟩
            · rintro ⟨h1, h2⟩
              rcases (hcovy v).mp h2 with h2' | h2'
              · exact Or.inl h2'
              · exact Or.inr ⟨h1, h2'⟩
          · rw [if_neg hb2]
            push_neg at hb2
            have hin_ge : i + 1 ≤ ibsearch x (rangeMin (y.getD j 0)) (i + 1) :=
              ibsearch_ge x _ (i + 1)
            have hin_le : ibsearch x (rangeMin (y.getD j 0)) (i + 1) ≤ x.length :=
              ibsearch_le_len x _ (i + 1) (by omega)
            by_cases hb3 : y.getD j 0 ≤
                rangeMax (x.getD (ibsearch x (rangeMin (y.getD j 0)) (i + 1) - 1) 0)
            · rw [if_pos hb3]
              have hin2 : i + 2 ≤ ibsearch x (rangeMin (y.getD j 0)) (i + 1) := by
                by_contra hcon
                push_neg at hcon
                have heq : ibsearch x (rangeMin (y.getD j 0)) (i + 1) - 1 = i := by omega
                rw [heq] at hb3
                omega
              have hskip : ∀ k, i ≤ k →
                  k < ibsearch x (rangeMin (y.getD j 0)) (i + 1) - 1 → k < x.length →
                  rangeMin (x.getD k 0) < rangeMin (y.getD j 0) ∧
                    rangeMax (x.getD k 0) < y.getD j 0 := by
                intro k hk1 hk2 hk3
                rcases Nat.eq_or_lt_of_le hk1 with rfl | hk1'
                · exact ⟨hb1', by omega⟩
                · have hlt := ibsearch_lt x (rangeMin (y.getD j 0)) (i + 1) k
                    (by omega) (by omega) hk3
                  have hkc := valid_center _ (hvx _ (getD_mem x k hk3))
                  have hin1lt := ibsearch_lt x (rangeMin (y.getD j 0)) (i + 1)
                    (ibsearch x (rangeMin (y.getD j 0)) (i + 1) - 1)
                    (by omega) (by omega) (by omega)
                  have hin1c := valid_center _
                    (hvx _ (getD_mem x (ibsearch x (rangeMin (y.getD j 0)) (i + 1) - 1)
                      (by omega)))
                  have hord := ordDisj_getD x hdx k
                    (ibsearch x (rangeMin (y.getD j 0)) (i + 1) - 1) (by omega) (by omega)
                  omega
              rw [ih x y hdx hvx hdy hvy
                (ibsearch x (rangeMin (y.getD j 0)) (i + 1) - 1) j (by omega) v]
              have hs := skip_cov_eq y x hdy hvy hvx j i _ hjy (by omega) hskip v
              constructor
              · rintro ⟨h1, h2⟩
                have := hs.mpr ⟨h2, h1⟩
                exact ⟨this.2, this.1⟩
              · rintro ⟨h1, h2⟩
                have := hs.mp ⟨h2, h1⟩
                exact ⟨this.2, this.1⟩
            · rw [if_neg hb3]
              push_neg at hb3
              have hskip : ∀ k, i ≤ k →
                  k < ibsearch x (rangeMin (y.getD j 0)) (i + 1) → k < x.length →
                  rangeMin (x.getD k 0) < rangeMin (y.getD j 0) ∧
                    rangeMax (x.getD k 0) < y.getD j 0 := by
                intro k hk1 hk2 hk3
                rcases Nat.eq_or_lt_of_le hk1 with rfl | hk1'
                · exact ⟨hb1', by omega⟩
                · have hlt := ibsearch_lt x (rangeMin (y.getD j 0)) (i + 1) k
                    (by omega) hk2 hk3
                  have hkc := valid_center _ (hvx _ (getD_mem x k hk3))
                  refine ⟨by omega, ?_⟩
                  rcases Nat.eq_or_lt_of_le
                      (by omega : k ≤ ibsearch x (rangeMin (y.getD j 0)) (i + 1) - 1)
                    with heq | hk2'
                  · rw [heq]
                    exact hb3
                  · have hin1c := valid_center _
                      (hvx _ (getD_mem x (ibsearch x (rangeMin (y.getD j 0)) (i + 1) - 1)
                        (by omega)))
                    have hord := ordDisj_getD x hdx k
                      (ibsearch x (rangeMin (y.getD j 0)) (i + 1) - 1) (by omega) (by omega)
                    omega
              rw [ih x y hdx hvx hdy hvy
                (ibsearch x (rangeMin (y.getD j 0)) (i + 1)) j (by omega) v]
              have hs := skip_cov_eq y x hdy hvy hvx j i _ hjy (by omega) hskip v
              constructor
              · rintro ⟨h1, h2⟩
                have := hs.mpr ⟨h2, h1⟩
                exact ⟨this.2, this.1⟩
              · rintro ⟨h1, h2⟩
                have := hs.mp ⟨h2, h1⟩
                exact ⟨this.2, this.1⟩
        · -- equal span starts: one entry contains the other; emit the smaller
          rw [if_neg hb1']
          have hmineq : rangeMin (x.getD i 0) = rangeMin (y.getD j 0) := by omega
          by_cases hb4 : x.getD i 0 < y.getD j 0
          · rw [if_pos hb4]
            have hcont : cellContains (y.getD j 0) (x.getD i 0) = true :=
              equalMin_contains _ _ hxiv hyjv hmineq (by omega)
            have hcs := (contains_iff _ _).mp hcont
            rw [covList_cons, ih x y hdx hvx hdy hvy (i + 1) j (by omega) v]
            constructor
            · rintro (h | ⟨h1, h2⟩)
              · exact ⟨(hcovx v).mpr (Or.inl h), (hcovy v).mpr (Or.inl ⟨by omega, by omega⟩)⟩
              · exact ⟨(hcovx v).mpr (Or.inr h1), h2⟩
            · rintro ⟨h1, h2⟩
              rcases (hcovx v).mp h1 with h1' | h1'
              · exact Or.inl h1'
              · exact Or.inr ⟨h1', h2⟩
          · rw [if_neg hb4]
            push_neg at hb4
            have hcont : cellContains (x.getD i 0) (y.getD j 0) = true :=
              equalMin_contains _ _ hyjv hxiv hmineq.symm hb4
            have hcs := (contains_iff _ _).mp hcont
            rw [covList_cons, ih x y hdx hvx hdy hvy i (j + 1) (by omega) v]
            constructor
            · rintro (h | ⟨h1, h2⟩)
              · exact ⟨(hcovx v).mpr (Or.inl ⟨by omega, by omega⟩), (hcovy v).mpr (Or.inl h)⟩
              · exact ⟨h1, (hcovy v).mpr (Or.inr h2)⟩
            · rintro ⟨h1, h2⟩
              rcases (hcovy v).mp h2 with h2' | h2'
              · exact Or.inl h2'
              · exact Or.inr ⟨h1, h2'⟩

/-- The merge's output is itself strictly ordered with disjoint spans, and
every emitted entry comes from one input and sits inside some entry of the
other input. -/
theorem interF_sorted : ∀ (fuel : Nat) (x y : List Nat), OrdDisj x → AllValid x →
    OrdDisj y → AllValid y → ∀ i j,
    OrdDisj (interF x y fuel i j) ∧
      (∀ e ∈ interF x y fuel i j,
        (e ∈ x.drop i ∧ ∃ b ∈ y.drop j, cellContains b e = true) ∨
        (e ∈ y.drop j ∧ ∃ a ∈ x.drop i, cellContains a e = true)) := by
  intro fuel
  induction fuel with
  | zero =>
    intro x y _ _ _ _ i j
    exact ⟨List.Pairwise.nil, fun e he => absurd he (List.not_mem_nil e)⟩
  | succ fuel ih =>
    intro x y hdx hvx hdy hvy i j
    by_cases hij : i < x.length ∧ j < y.length
    case neg =>
      have hnil : interF x y (fuel + 1) i j = [] := by
        simp only [interF, if_neg hij]
      rw [hnil]
      exact ⟨List.Pairwise.nil, fun e he => absurd he (List.not_mem_nil e)⟩
    case pos =>
      obtain ⟨hix, hjy⟩ := hij
      have hxiv : validCell (x.getD i 0) := hvx _ (getD_mem x i hix)
      have hyjv : validCell (y.getD j 0) := hvy _ (getD_mem y j hjy)
      have hxic := valid_center _ hxiv
      have hyjc := valid_center _ hyjv
      have hxihead : x.getD i 0 ∈ x.drop i := getD_mem_drop x i i (Nat.le_refl i) hix
      have hyjhead : y.getD j 0 ∈ y.drop j := getD_mem_drop y j j (Nat.le_refl j) hjy
      simp only [interF, if_pos (And.intro hix hjy)]
      by_cases hb1 : rangeMin (y.getD j 0) < rangeMin (x.getD i 0)
      · rw [if_pos hb1]
        by_cases hb2 : x.getD i 0 ≤ rangeMax (y.getD j 0)
        · rw [if_pos hb2]
          have hcont : cellContains (y.getD j 0) (x.getD i 0) = true :=
            center_in_contains _ _ hxiv hyjv (by omega) hb2
          obtain ⟨hihd, hihm⟩ := ih x y hdx hvx hdy hvy (i + 1) j
          constructor
          · refine List.pairwise_cons.mpr ⟨?_, hihd⟩
            intro e' he'
            rcases hihm e' he' with ⟨hex, _, _, _⟩ | ⟨_, a, ha, hca⟩
            · exact drop_head_rel x hdx i hix e' hex
            · have h1 := drop_head_rel x hdx i hix a ha
              have h2 := ((contains_iff _ _).mp hca).1
              omega
          · intro e he
            rcases List.mem_cons.mp he with rfl | he'
            · exact Or.inl ⟨hxihead, y.getD j 0, hyjhead, hcont⟩
            · rcases hihm e he' with ⟨hex, b, hb, hcb⟩ | ⟨hey, a, ha, hca⟩
              · exact Or.inl ⟨drop_mono_mem x i (i + 1) (by omega) e hex, b, hb, hcb⟩
              · exact Or.inr ⟨hey, a, drop_mono_mem x i (i + 1) (by omega) a ha, hca⟩
        · rw [if_neg hb2]
          have hjn_ge : j + 1 ≤ ibsearch y (rangeMin (x.getD i 0)) (j + 1) :=
            ibsearch_ge y _ (j + 1)
          by_cases hb3 : x.getD i 0 ≤
              rangeMax (y.getD (ibsearch y (rangeMin (x.getD i 0)) (j + 1) - 1) 0)
          · rw [if_pos hb3]
            obtain ⟨hihd, hihm⟩ := ih x y hdx hvx hdy hvy i
              (ibsearch y (rangeMin (x.getD i 0)) (j + 1) - 1)
            refine ⟨hihd, ?_⟩
            intro e he
            rcases hihm e he with ⟨hex, b, hb, hcb⟩ | ⟨hey, a, ha, hca⟩
            · exact Or.inl ⟨hex, b, drop_mono_mem y j _ (by omega) b hb, hcb⟩
            · exact Or.inr ⟨drop_mono_mem y j _ (by omega) e hey, a, ha, hca⟩
          · rw [if_neg hb3]
            obtain ⟨hihd, hihm⟩ := ih x y hdx hvx hdy hvy i
              (ibsearch y (rangeMin (x.getD i 0)) (j + 1))
            refine ⟨hihd, ?_⟩
            intro e he
            rcases hihm e he with ⟨hex, b, hb, hcb⟩ | ⟨hey, a, ha, hca⟩
            · exact Or.inl ⟨hex, b, drop_mono_mem y j _ (by omega) b hb, hcb⟩
            · exact Or.inr ⟨drop_mono_mem y j _ (by omega) e hey, a, ha, hca⟩
      · rw [if_neg hb1]
        by_cases hb1' : rangeMin (x.getD i 0) < rangeMin (y.getD j 0)
        · rw [if_pos hb1']
          by_cases hb2 : y.getD j 0 ≤ rangeMax (x.getD i 0)
          · rw [if_pos hb2]
            have hcont : cellContains (x.getD i 0) (y.getD j 0) = true :=
              center_in_contains _ _ hyjv hxiv (by omega) hb2
            obtain ⟨hihd, hihm⟩ := ih x y hdx hvx hdy hvy i (j + 1)
            constructor
            · refine List.pairwise_cons.mpr ⟨?_, hihd⟩
              intro e' he'
              rcases hihm e' he' with ⟨_, b, hb, hcb⟩ | ⟨hey, _, _, _⟩
              · have h1 := drop_head_rel y hdy j hjy b hb
                have h2 := ((contains_iff _ _).mp hcb).1
                omega
              · exact drop_head_rel y hdy j hjy e' hey
            · intro e he
              rcases List.mem_cons.mp he with rfl | he'
              · exact Or.inr ⟨hyjhead, x.getD i 0, hxihead, hcont⟩
              · rcases hihm e he' with ⟨hex, b, hb, hcb⟩ | ⟨hey, a, ha, hca⟩
                · exact Or.inl ⟨hex, b, drop_mono_mem y j (j + 1) (by omega) b hb, hcb⟩
                · exact Or.inr ⟨drop_mono_mem y j (j + 1) (by omega) e hey, a, ha, hca⟩
          · rw [if_neg hb2]
            have hin_ge : i + 1 ≤ ibsearch x (rangeMin (y.getD j 0)) (i + 1) :=
              ibsearch_ge x _ (i + 1)
            by_cases hb3 : y.getD j 0 ≤
                rangeMax (x.getD (ibsearch x (rangeMin (y.getD j 0)) (i + 1) - 1) 0)
            · rw [if_pos hb3]
              obtain ⟨hihd, hihm⟩ := ih x y hdx hvx hdy hvy
                (ibsearch x (rangeMin (y.getD j 0)) (i + 1) - 1) j
              refine ⟨hihd, ?_⟩
              intro e he
              rcases hihm e he with ⟨hex, b, hb, hcb⟩ | ⟨hey, a, ha, hca⟩
              · exact Or.inl ⟨drop_mono_mem x i _ (by omega) e hex, b, hb, hcb⟩
              · exact Or.inr ⟨hey, a, drop_mono_mem x i _ (by omega) a ha, hca⟩
            · rw [if_neg hb3]
              obtain ⟨hihd, hihm⟩ := ih x y hdx hvx hdy hvy
                (ibsearch x (rangeMin (y.getD j 0)) (i + 1)) j
              refine ⟨hihd, ?_⟩
              intro e he
              rcases hihm e he with ⟨hex, b, hb, hcb⟩ | ⟨hey, a, ha, hca⟩
              · exact Or.inl ⟨drop_mono_mem x i _ (by omega) e hex, b, hb, hcb⟩
              · exact Or.inr ⟨hey, a, drop_mono_mem x i _ (by omega) a ha, hca⟩
        · rw [if_neg hb1']
          have hmineq : rangeMin (x.getD i 0) = rangeMin (y.getD j 0) := by omega
          by_cases hb4 : x.getD i 0 < y.getD j 0
          · rw [if_pos hb4]
            have hcont : cellContains (y.getD j 0) (x.getD i 0) = true :=
              equalMin_contains _ _ hxiv hyjv hmineq (by omega)
            obtain ⟨hihd, hihm⟩ := ih x y hdx hvx hdy hvy (i + 1) j
            constructor
            · refine List.pairwise_cons.mpr ⟨?_, hihd⟩
              intro e' he'
              rcases hihm e' he' with ⟨hex, _, _, _⟩ | ⟨_, a, ha, hca⟩
              · exact drop_head_rel x hdx i hix e' hex
              · have h1 := drop_head_rel x hdx i hix a ha
                have h2 := ((contains_iff _ _).mp hca).1
                omega
            · intro e he
              rcases List.mem_cons.mp he with rfl | he'
              · exact Or.inl ⟨hxihead, y.getD j 0, hyjhead, hcont⟩
              · rcases hihm e he' with ⟨hex, b, hb, hcb⟩ | ⟨hey, a, ha, hca⟩
                · exact Or.inl ⟨drop_mono_mem x i (i + 1) (by omega) e hex, b, hb, hcb⟩
                · exact Or.inr ⟨hey, a, drop_mono_mem x i (i + 1) (by omega) a ha, hca⟩
          · rw [if_neg hb4]
            push_neg at hb4
            have hcont : cellContains (x.getD i 0) (y.getD j 0) = true :=
              equalMin_contains _ _ hyjv hxiv hmineq.symm hb4
            obtain ⟨hihd, hihm⟩ := ih x y hdx hvx hdy hvy i (j + 1)
            constructor
            · refine List.pairwise_cons.mpr ⟨?_, hihd⟩
              intro e' he'
              rcases hihm e' he' with ⟨_, b, hb, hcb⟩ | ⟨hey, _, _, _⟩
              · have h1 := drop_head_rel y hdy j hjy b hb
                have h2 := ((contains_iff _ _).mp hcb).1
                omega
              · exact drop_head_rel y hdy j hjy e' hey
            · intro e he
              rcases List.mem_cons.mp he with rfl | he'
              · exact Or.inr ⟨hyjhead, x.getD i 0, hxihead, hcont⟩
              · rcases hihm e he' with ⟨hex, b, hb, hcb⟩ | ⟨hey, a, ha, hca⟩
                · exact Or.inl ⟨hex, b, drop_mono_mem y j (j + 1) (by omega) b hb, hcb⟩
                · exact Or.inr ⟨drop_mono_mem y j (j + 1) (by omega) e hey, a, ha, hca⟩

/- ---------------------------------------------------------------------
   expand(): the backward scan
   --------------------------------------------------------------------- -/

theorem skipBack_le (l : List Nat) (id : Nat) : ∀ i, skipBack l id i ≤ i := by
  intro i
  induction i with
  | zero => simp [skipBack]
  | succ i ih =>
    rw [skipBack]
    by_cases hc : cellContains id (l.getD i 0) = true
    · rw [if_pos hc]
      omega
    · rw [if_neg hc]

theorem skipBack_contains (l : List Nat) (id : Nat) :
    ∀ i k, skipBack l id i ≤ k → k < i → cellContains id (l.getD k 0) = true := by
  intro i
  induction i with
  | zero => omega
  | succ i ih =>
    intro k h1 h2
    rw [skipBack] at h1
    by_cases hc : cellContains id (l.getD i 0) = true
    · rw [if_pos hc] at h1
      rcases Nat.lt_or_ge k i with hk | hk
      · exact ih k h1 hk
      · have : k = i := by omega
        rw [this]
        exact hc
    · rw [if_neg hc] at h1
      omega

theorem take_rev_cons (l : List Nat) (i : Nat) (hi : i < l.length) :
    (l.take (i + 1)).reverse = l.getD i 0 :: (l.take i).reverse := by
  rw [List.take_succ]
  have h : l[i]? = some (l.getD i 0) := by
    rw [List.getElem?_eq_getElem hi, List.getD_eq_getElem l 0 hi]
  rw [h]
  simp

theorem expandSpecGoF_nil (nb : Nat → Nat → List Nat) (levelLsb level fuel : Nat) :
    expandSpecGoF nb levelLsb level fuel [] = [] := by
  cases fuel <;> rfl

theorem dropWhile_take_rev (l : List Nat) (id : Nat) :
    ∀ i, i ≤ l.length →
    ((l.take i).reverse).dropWhile (fun c => cellContains id c) =
      (l.take (skipBack l id i)).reverse := by
  intro i
  induction i with
  | zero => simp [skipBack]
  | succ i ih =>
    intro hi
    rw [take_rev_cons l i (by omega), List.dropWhile_cons, skipBack]
    by_cases hc : cellContains id (l.getD i 0) = true
    · rw [if_pos hc]
      simp only [hc, if_true]
      exact ih (by omega)
    · rw [if_neg hc]
      simp only [Bool.not_eq_true] at hc
      simp only [hc]
      rw [if_neg Bool.false_ne_true, ← take_rev_cons l i (by omega)]

/-- The index-based do-while loop of the source equals the spec's
list-structural backward scan over the reversed prefix. -/
theorem expandGo_eq_spec (nb : Nat → Nat → List Nat) (l : List Nat)
    (levelLsb level : Nat) :
    ∀ fuel i, i < l.length → i < fuel →
    expandGoF nb l levelLsb level fuel i =
      expandSpecGoF nb levelLsb level fuel ((l.take (i + 1)).reverse) := by
  intro fuel
  induction fuel with
  | zero => omega
  | succ fuel ih =>
    intro i hi hif
    rw [take_rev_cons l i hi]
    simp only [expandGoF, expandSpecGoF]
    by_cases hc : lowestOnBit (l.getD i 0) < levelLsb
    · rw [if_pos hc, if_pos hc]
      rw [dropWhile_take_rev l (parentL (l.getD i 0) level) i (by omega)]
      by_cases h0 : skipBack l (parentL (l.getD i 0) level) i = 0
      · rw [if_pos h0, h0]
        simp [expandSpecGoF_nil]
      · rw [if_neg h0]
        have hle := skipBack_le l (parentL (l.getD i 0) level) i
        have hrec := ih (skipBack l (parentL (l.getD i 0) level) i - 1)
          (by omega) (by omega)
        rw [hrec]
        simp only [show skipBack l (parentL (l.getD i 0) level) i - 1 + 1 =
          skipBack l (parentL (l.getD i 0) level) i from by omega]
    · rw [if_neg hc, if_neg hc]
      by_cases h0 : i = 0
      · rw [if_pos h0, h0]
        simp [expandSpecGoF_nil]
      · rw [if_neg h0]
        have hrec := ih (i - 1) (by omega) (by omega)
        rw [hrec]
        simp only [show i - 1 + 1 = i from by omega]

/-- The level-`level` ancestor of a strictly finer well-formed cell: it is
well-formed, sits at the requested level, and contains the cell. -/
theorem parentL_spec (n level : Nat) (hn : validCell n)
    (hfine : lowestOnBit n < lowestOnBitForLevel level) :
    cellContains (parentL n level) n = true ∧ validCell (parentL n level) := by
  obtain ⟨k, t, hk, hsn, hln, hbn⟩ := valid_destruct n hn
  have h4 : ∀ m : Nat, (4 : Nat) ^ m = 2 ^ (2 * m) := by
    intro m
    rw [show (4 : Nat) = 2 ^ 2 from rfl, ← pow_mul]
  have hsl : lowestOnBitForLevel level = 4 ^ (30 - level) := by
    unfold lowestOnBitForLevel
    rw [h4]
  set kl := 30 - level with hkl
  have hkkl : k < kl := by
    rw [hsl, hln] at hfine
    exact (Nat.pow_lt_pow_iff_right (by omega)).mp hfine
  have hklle : kl ≤ 30 := by omega
  have hs_pos : (0 : Nat) < 4 ^ kl := Nat.pos_pow_of_pos _ (by omega)
  have hk_pos : (0 : Nat) < 4 ^ k := Nat.pos_pow_of_pos _ (by omega)
  have hpeq : parentL n level = (n / (2 * 4 ^ kl)) * (2 * 4 ^ kl) + 4 ^ kl := by
    unfold parentL
    rw [hsl]
  have hdm := Nat.div_add_mod n (2 * 4 ^ kl)
  have hmlt : n % (2 * 4 ^ kl) < 2 * 4 ^ kl := Nat.mod_lt _ (by omega)
  set q := n / (2 * 4 ^ kl) with hq
  set r := n % (2 * 4 ^ kl) with hr
  -- the candidate value is never exactly a block boundary
  have hrne : r ≠ 0 := by
    intro h0
    have hdiv : n = (2 * 4 ^ kl) * q := by omega
    have hsplit : (4 : Nat) ^ kl = 4 ^ k * 4 ^ (kl - k) := by
      rw [← pow_add]
      congr 1
      omega
    have heq2 : (2 * t + 1) * 4 ^ k = 4 ^ k * (2 * (4 ^ (kl - k) * q)) := by
      have e1 : n = (2 * t + 1) * 4 ^ k := by rw [hsn]; ring
      rw [← e1, hdiv, hsplit]
      ring
    have heq3 : 4 ^ k * (2 * t + 1) = 4 ^ k * (2 * (4 ^ (kl - k) * q)) := by
      rw [Nat.mul_comm (4 ^ k) (2 * t + 1)]
      exact heq2
    have := Nat.eq_of_mul_eq_mul_left hk_pos heq3
    omega
  have hplsb : lowestOnBit (parentL n level) = 4 ^ kl := by
    rw [hpeq, show q * (2 * 4 ^ kl) + 4 ^ kl = (2 * q + 1) * 4 ^ kl from by ring, h4]
    exact lowestOnBit_odd_mul_pow _ _ (by omega)
  have hpstruct : parentL n level = 2 * q * 4 ^ kl + 4 ^ kl := by
    rw [hpeq]
    ring
  -- the whole identifier space is a multiple of the parent block width
  have hspace : 6 * 2 ^ 61 = (2 * 4 ^ kl) * (3 * 2 ^ (61 - 2 * kl)) := by
    rw [h4, show 2 * 2 ^ (2 * kl) * (3 * 2 ^ (61 - 2 * kl)) =
      6 * (2 ^ (2 * kl) * 2 ^ (61 - 2 * kl)) from by ring, ← pow_add]
    congr 2
    omega
  have hqlt : q < 3 * 2 ^ (61 - 2 * kl) := by
    by_contra hcon
    push_neg at hcon
    have h1 : (2 * 4 ^ kl) * (3 * 2 ^ (61 - 2 * kl)) ≤ (2 * 4 ^ kl) * q :=
      Nat.mul_le_mul_left _ hcon
    omega
  have hpbound : parentL n level < 6 * 2 ^ 61 := by
    have h1 : (q + 1) * (2 * 4 ^ kl) ≤ (3 * 2 ^ (61 - 2 * kl)) * (2 * 4 ^ kl) :=
      Nat.mul_le_mul_right _ (by omega)
    have h2 : (q + 1) * (2 * 4 ^ kl) = q * (2 * 4 ^ kl) + 2 * 4 ^ kl := by ring
    have h3 : (3 * 2 ^ (61 - 2 * kl)) * (2 * 4 ^ kl) = 6 * 2 ^ 61 := by
      rw [Nat.mul_comm (3 * 2 ^ (61 - 2 * kl)) (2 * 4 ^ kl)]
      exact hspace.symm
    rw [hpeq]
    omega
  have hpvalid : validCell (parentL n level) :=
    valid_of_struct kl q _ hklle hpstruct hpbound
  refine ⟨?_, hpvalid⟩
  have hcenter : rangeMin (parentL n level) ≤ n ∧ n ≤ rangeMax (parentL n level) := by
    rw [rangeMin_of_struct _ kl q hpstruct hplsb,
      rangeMax_of_struct _ kl q hpstruct hplsb]
    have e1 : 2 * q * 4 ^ kl = q * (2 * 4 ^ kl) := by ring
    have e2 : q * (2 * 4 ^ kl) = 2 * 4 ^ kl * q := by ring
    omega
  exact center_in_contains n (parentL n level) hn hpvalid hcenter.1 hcenter.2

/-- Every entry of the original sequence (at an index processed by the scan)
is contained in some emitted cell. -/
theorem expandGo_covers (nb : Nat → Nat → List Nat) (l : List Nat)
    (level : Nat) (hv : ∀ c ∈ l, validCell c) :
    ∀ fuel i, i < l.length → i < fuel → ∀ k, k ≤ i →
    ∃ g ∈ expandGoF nb l (lowestOnBitForLevel level) level fuel i,
      cellContains g (l.getD k 0) = true := by
  intro fuel
  induction fuel with
  | zero => omega
  | succ fuel ih =>
    intro i hi hif k hk
    simp only [expandGoF]
    by_cases hc : lowestOnBit (l.getD i 0) < lowestOnBitForLevel level
    · rw [if_pos hc]
      have hps := parentL_spec (l.getD i 0) level (hv _ (getD_mem l i hi)) hc
      have hsble := skipBack_le l (parentL (l.getD i 0) level) i
      by_cases h0 : skipBack l (parentL (l.getD i 0) level) i = 0
      · rw [if_pos h0]
        rcases Nat.eq_or_lt_of_le hk with rfl | hki
        · exact ⟨parentL (l.getD k 0) level, List.mem_cons_self _ _, hps.1⟩
        · refine ⟨parentL (l.getD i 0) level, List.mem_cons_self _ _, ?_⟩
          exact skipBack_contains l (parentL (l.getD i 0) level) i k (by omega) hki
      · rw [if_neg h0]
        rcases Nat.lt_or_ge k (skipBack l (parentL (l.getD i 0) level) i) with hks | hks
        · obtain ⟨g, hg, hgc⟩ := ih (skipBack l (parentL (l.getD i 0) level) i - 1)
            (by omega) (by omega) k (by omega)
          exact ⟨g, List.mem_append_right _ hg, hgc⟩
        · rcases Nat.eq_or_lt_of_le hk with rfl | hki
          · exact ⟨parentL (l.getD k 0) level, List.mem_append_left _
              (List.mem_cons_self _ _), hps.1⟩
          · refine ⟨parentL (l.getD i 0) level, List.mem_append_left _
              (List.mem_cons_self _ _), ?_⟩
            exact skipBack_contains l (parentL (l.getD i 0) level) i k hks hki
    · rw [if_neg hc]
      by_cases h0 : i = 0
      · rw [if_pos h0]
        have hki : k = i := by omega
        rw [hki]
        exact ⟨l.getD i 0, List.mem_cons_self _ _, contains_refl _⟩
      · rw [if_neg h0]
        rcases Nat.eq_or_lt_of_le hk with rfl | hki
        · exact ⟨l.getD k 0, List.mem_append_left _ (List.mem_cons_self _ _),
            contains_refl _⟩
        · obtain ⟨g, hg, hgc⟩ := ih (i - 1) (by omega) (by omega) k (by omega)
          exact ⟨g, List.mem_append_right _ hg, hgc⟩

/-- Every cell emitted by the scan is well-formed, provided the entries and
the adjacency enumeration produce well-formed cells. -/
theorem expandGo_valid (nb : Nat → Nat → List Nat) (l : List Nat)
    (level : Nat) (hv : ∀ c ∈ l, validCell c)
    (hnb : ∀ c lvl, ∀ e ∈ nb c lvl, validCell e) :
    ∀ fuel i, i < l.length →
    ∀ g ∈ expandGoF nb l (lowestOnBitForLevel level) level fuel i, validCell g := by
  intro fuel
  induction fuel with
  | zero =>
    intro i _ g hg
    simp [expandGoF] at hg
  | succ fuel ih =>
    intro i hi g hg
    simp only [expandGoF] at hg
    by_cases hc : lowestOnBit (l.getD i 0) < lowestOnBitForLevel level
    · rw [if_pos hc] at hg
      have hps := parentL_spec (l.getD i 0) level (hv _ (getD_mem l i hi)) hc
      have hsble := skipBack_le l (parentL (l.getD i 0) level) i
      by_cases h0 : skipBack l (parentL (l.getD i 0) level) i = 0
      · rw [if_pos h0] at hg
        rcases List.mem_cons.mp hg with rfl | hg'
        · exact hps.2
        · exact hnb _ _ g hg'
      · rw [if_neg h0] at hg
        rcases List.mem_append.mp hg with hg' | hg'
        · rcases List.mem_cons.mp hg' with rfl | hg''
          · exact hps.2
          · exact hnb _ _ g hg''
        · exact ih (skipBack l (parentL (l.getD i 0) level) i - 1) (by omega) g hg'
    · rw [if_neg hc] at hg
      by_cases h0 : i = 0
      · rw [if_pos h0] at hg
        rcases List.mem_cons.mp hg with rfl | hg'
        · exact hv _ (getD_mem l i hi)
        · exact hnb _ _ g hg'
      · rw [if_neg h0] at hg
        rcases List.mem_append.mp hg with hg' | hg'
        · rcases List.mem_cons.mp hg' with rfl | hg''
          · exact hv _ (getD_mem l i hi)
          · exact hnb _ _ g hg''
        · exact ih (i - 1) (by omega) g hg'

/- ---------------------------------------------------------------------
   leafCellsCovered: exactness
   --------------------------------------------------------------------- -/

theorem tzAux_odd_mul_pow :
    ∀ fuel j t, j < fuel → tzAux fuel ((2 * t + 1) * 2 ^ j) = j := by
  intro fuel
  induction fuel with
  | zero => omega
  | succ f ih =>
    intro j t h
    match j with
    | 0 =>
      have h1 : (2 * t + 1) * 2 ^ 0 = 2 * t + 1 := by ring
      rw [h1, tzAux]
      have h2 : ¬(2 * t + 1 = 0) := by omega
      have h3 : (2 * t + 1) % 2 = 1 := by omega
      simp [h2, h3]
    | j + 1 =>
      have h1 : (2 * t + 1) * 2 ^ (j + 1) = 2 * ((2 * t + 1) * 2 ^ j) := by ring
      rw [h1, tzAux]
      have hpos : 0 < (2 * t + 1) * 2 ^ j := by positivity
      have h2 : ¬(2 * ((2 * t + 1) * 2 ^ j) = 0) := by omega
      have h3 : ¬(2 * ((2 * t + 1) * 2 ^ j) % 2 = 1) := by omega
      have h4 : 2 * ((2 * t + 1) * 2 ^ j) / 2 = (2 * t + 1) * 2 ^ j :=
        Nat.mul_div_cancel_left _ (by omega)
      simp only [h2, h3, if_false, h4]
      rw [ih j t (by omega)]

theorem levelOf_valid (n : Nat) (h : validCell n) :
    4 ^ (30 - levelOf n) = lowestOnBit n ∧
      2 ^ (2 * (30 - levelOf n)) = lowestOnBit n := by
  obtain ⟨k, t, hk, hsn, hln, _⟩ := valid_destruct n h
  have h4 : (4 : Nat) ^ k = 2 ^ (2 * k) := by
    rw [show (4 : Nat) = 2 ^ 2 from rfl, ← pow_mul]
  have hn2 : n = (2 * t + 1) * 2 ^ (2 * k) := by
    rw [hsn, h4]
    ring
  have htz : tzAux 64 n = 2 * k := by
    rw [hn2]
    exact tzAux_odd_mul_pow 64 (2 * k) t (by omega)
  have hlev : levelOf n = 30 - k := by
    unfold levelOf
    rw [htz]
    omega
  rw [hlev, hln, show 30 - (30 - k) = k from by omega, h4]
  exact ⟨rfl, rfl⟩

theorem valid_block_even (c : Nat) (h : validCell c) :
    (∃ m, c - lowestOnBit c = 2 * m) ∧ (∃ m, c + lowestOnBit c = 2 * m) ∧
      lowestOnBit c ≤ c ∧ c + lowestOnBit c ≤ 6 * 2 ^ 61 := by
  obtain ⟨k, t, hk, hsn, hln, hbn⟩ := valid_destruct c h
  have hpos : (0 : Nat) < 4 ^ k := Nat.pos_pow_of_pos _ (by omega)
  have hspace : 6 * 2 ^ 61 = (2 * 4 ^ k) * (3 * 2 ^ (61 - 2 * k)) := by
    rw [show (4 : Nat) ^ k = 2 ^ (2 * k) from by
        rw [show (4 : Nat) = 2 ^ 2 from rfl, ← pow_mul],
      show 2 * 2 ^ (2 * k) * (3 * 2 ^ (61 - 2 * k)) =
        6 * (2 ^ (2 * k) * 2 ^ (61 - 2 * k)) from by ring, ← pow_add]
    congr 2
    omega
  have htlt : t < 3 * 2 ^ (61 - 2 * k) := by
    by_contra hcon
    push_neg at hcon
    have h1 : (2 * 4 ^ k) * (3 * 2 ^ (61 - 2 * k)) ≤ (2 * 4 ^ k) * t :=
      Nat.mul_le_mul_left _ hcon
    have h2 : (2 * 4 ^ k) * t = 2 * t * 4 ^ k := by ring
    omega
  have hend : c + lowestOnBit c ≤ 6 * 2 ^ 61 := by
    have h1 : (t + 1) * (2 * 4 ^ k) ≤ (3 * 2 ^ (61 - 2 * k)) * (2 * 4 ^ k) :=
      Nat.mul_le_mul_right _ (by omega)
    have h2 : (t + 1) * (2 * 4 ^ k) = 2 * t * 4 ^ k + 2 * 4 ^ k := by ring
    have h3 : (3 * 2 ^ (61 - 2 * k)) * (2 * 4 ^ k) = 6 * 2 ^ 61 := by
      rw [Nat.mul_comm (3 * 2 ^ (61 - 2 * k)) (2 * 4 ^ k)]
      exact hspace.symm
    omega
  have e1 : 2 * t * 4 ^ k = 2 * (t * 4 ^ k) := by ring
  exact ⟨⟨t * 4 ^ k, by omega⟩, ⟨t * 4 ^ k + 4 ^ k, by omega⟩, by omega, hend⟩

theorem sum_blocks_le : ∀ (l : List Nat), OrdDisj l → AllValid l →
    ∀ B, B ≤ 6 * 2 ^ 61 → (∀ c ∈ l, B ≤ c - lowestOnBit c) →
    (l.map (fun c => 2 * lowestOnBit c)).sum + B ≤ 6 * 2 ^ 61 := by
  intro l
  induction l with
  | nil =>
    intro _ _ B hB _
    simpa using hB
  | cons c rest ih =>
    intro hd hv B hB hBl
    have hcv : validCell c := hv c (List.mem_cons_self _ _)
    obtain ⟨⟨m1, hm1⟩, ⟨m2, hm2⟩, hle, hend⟩ := valid_block_even c hcv
    have hd' : OrdDisj rest := (List.pairwise_cons.mp hd).2
    have hv' : AllValid rest := fun e he => hv e (List.mem_cons_of_mem _ he)
    have hrel := (List.pairwise_cons.mp hd).1
    have hstep : ∀ e ∈ rest, c + lowestOnBit c ≤ e - lowestOnBit e := by
      intro e he
      have hev : validCell e := hv' e he
      obtain ⟨⟨m3, hm3⟩, _, hle', _⟩ := valid_block_even e hev
      have hr := hrel e he
      unfold rangeMax rangeMin at hr
      omega
    have := ih hd' hv' (c + lowestOnBit c) hend hstep
    simp only [List.map_cons, List.sum_cons]
    have hBc : B ≤ c - lowestOnBit c := hBl c (List.mem_cons_self _ _)
    omega

theorem fold_mod_eq : ∀ (l : List Nat) (acc : Nat),
    acc + (l.map (fun c => 2 ^ (2 * (30 - levelOf c)))).sum < 2 ^ 64 →
    l.foldl (fun a id => (a + 2 ^ (2 * (30 - levelOf id))) % 2 ^ 64) acc =
      acc + (l.map (fun c => 2 ^ (2 * (30 - levelOf c)))).sum := by
  intro l
  induction l with
  | nil =>
    intro acc _
    simp
  | cons c rest ih =>
    intro acc hb
    simp only [List.map_cons, List.sum_cons] at hb ⊢
    rw [List.foldl_cons]
    have hsmall : (acc + 2 ^ (2 * (30 - levelOf c))) % 2 ^ 64 =
        acc + 2 ^ (2 * (30 - levelOf c)) := Nat.mod_eq_of_lt (by omega)
    rw [hsmall, ih (acc + 2 ^ (2 * (30 - levelOf c))) (by omega)]
    omega

theorem map_two_mul_sum (l : List Nat) :
    (l.map (fun c => 2 * lowestOnBit c)).sum = 2 * (l.map lowestOnBit).sum := by
  induction l with
  | nil => simp
  | cons c rest ih =>
    simp only [List.map_cons, List.sum_cons, ih]
    ring

/-- On a normalized well-formed union, `leafCellsCovered` computes the exact
mathematical sum `Σ 4^(30 − level)` — the 64-bit accumulator never wraps. -/
theorem leafCC_exact (l : List Nat) (hd : OrdDisj l) (hv : AllValid l) :
    leafCellsCoveredL l = (l.map (fun c => 4 ^ (30 - levelOf c))).sum := by
  have hmap1 : l.map (fun c => 2 ^ (2 * (30 - levelOf c))) = l.map lowestOnBit := by
    apply List.map_congr_left
    intro a ha
    exact (levelOf_valid a (hv a ha)).2
  have hmap2 : l.map (fun c => (4 : Nat) ^ (30 - levelOf c)) = l.map lowestOnBit := by
    apply List.map_congr_left
    intro a ha
    exact (levelOf_valid a (hv a ha)).1
  have hsum := sum_blocks_le l hd hv 0 (by omega) (fun c _ => Nat.zero_le _)
  rw [map_two_mul_sum] at hsum
  have hlt : (l.map lowestOnBit).sum < 2 ^ 64 := by
    have : (6 : Nat) * 2 ^ 61 < 2 * 2 ^ 64 := by norm_num
    omega
  unfold leafCellsCoveredL
  rw [fold_mod_eq l 0 (by rw [hmap1]; omega), hmap1, hmap2]
  omega

/- ---------------------------------------------------------------------
   normalize() on an ancestor plus its descendants
   --------------------------------------------------------------------- -/

theorem properDesc_not_contains (c d : Nat) (hc : validCell c) (hd : ProperDesc c d) :
    cellContains d c = false := by
  obtain ⟨hdv, hdc, hdne⟩ := hd
  by_contra h
  rw [Bool.not_eq_false] at h
  exact hdne (contains_antisymm d c hdv hc h hdc)

theorem popContained_all (id : Nat) :
    ∀ out : List Nat, (∀ e ∈ out, cellContains id e = true) →
      popContained id out = [] := by
  intro out
  induction out with
  | nil => intro _; rfl
  | cons t rest ih =>
    intro h
    rw [popContained, if_pos (h t (List.mem_cons_self _ _))]
    exact ih fun e he => h e (List.mem_cons_of_mem _ he)

theorem c4_fold_keep (c : Nat) (hc : validCell c) :
    ∀ rem : List Nat, (∀ e ∈ rem, e = c ∨ ProperDesc c e) →
      rem.foldl addCell [c] = [c] := by
  intro rem
  induction rem with
  | nil => intro _; rfl
  | cons id tl ih =>
    intro h
    have hcont : cellContains c id = true := by
      rcases h id (List.mem_cons_self _ _) with rfl | hpd
      · exact contains_refl _
      · exact hpd.2.1
    have hstep : addCell [c] id = [c] := by
      show (if cellContains c id = true then [c] else pushStep [c] id) = [c]
      rw [if_pos hcont]
    rw [List.foldl_cons, hstep]
    exact ih fun e he => h e (List.mem_cons_of_mem _ he)

theorem c4_fold_main (c : Nat) (hc : validCell c) :
    ∀ rem out : List Nat, rem.Pairwise (· ≤ ·) →
      (∀ e ∈ out, ∀ m ∈ rem, e ≤ m) →
      (∀ e ∈ out, ProperDesc c e) →
      c ∈ rem →
      (∀ e ∈ rem, e = c ∨ ProperDesc c e) →
      rem.foldl addCell out = [c] := by
  intro rem
  induction rem with
  | nil =>
    intro out _ _ _ hcm _
    cases hcm
  | cons id tl ih =>
    intro out hsorted hbound hpd hcm hall
    have hle : ∀ e ∈ out, e ≤ id := fun e he =>
      hbound e he id (List.mem_cons_self _ _)
    have htl_sorted : tl.Pairwise (· ≤ ·) := (List.pairwise_cons.mp hsorted).2
    have hid_le : ∀ m ∈ tl, id ≤ m := (List.pairwise_cons.mp hsorted).1
    rw [List.foldl_cons]
    rcases hall id (List.mem_cons_self _ _) with rfl | hpdid
    · -- the ancestor itself arrives: the stack collapses to just it
      have hstep : addCell out id = [id] := by
        rcases addCell_cases out id hle with ⟨t, rest, hout, hc', _⟩ | ⟨heq, _⟩
        · have htpd := hpd t (hout ▸ List.mem_cons_self _ _)
          have := properDesc_not_contains id t hc htpd
          rw [hc'] at this
          cases this
        · rw [heq, popContained_all id out (fun e he => (hpd e he).2.1)]
      rw [hstep]
      exact c4_fold_keep id hc tl fun e he => hall e (List.mem_cons_of_mem _ he)
    · -- a proper descendant arrives: it is dropped or stacked
      have hcmtl : c ∈ tl := by
        rcases List.mem_cons.mp hcm with rfl | h
        · exact absurd rfl hpdid.2.2
        · exact h
      have halltl : ∀ e ∈ tl, e = c ∨ ProperDesc c e :=
        fun e he => hall e (List.mem_cons_of_mem _ he)
      rcases addCell_cases out id hle with ⟨t, rest, hout, _, heq⟩ | ⟨heq, _⟩
      · rw [heq]
        refine ih out htl_sorted ?_ hpd hcmtl halltl
        intro e he m hm
        exact hbound e he m (List.mem_cons_of_mem _ hm)
      · rw [heq]
        have hpopmem : ∀ e ∈ popContained id out, e ∈ out := fun e he =>
          (popContained_suffix id out).sublist.mem he
        refine ih (id :: popContained id out) htl_sorted ?_ ?_ hcmtl halltl
        · intro e he m hm
          rcases List.mem_cons.mp he with rfl | he'
          · exact hid_le m hm
          · exact hbound e (hpopmem e he') m (List.mem_cons_of_mem _ hm)
        · intro e he
          rcases List.mem_cons.mp he with rfl | he'
          · exact hpdid
          · exact hpd e (hpopmem e he')

theorem two_mem_length (l : List Nat) (c d : Nat) (hc : c ∈ l) (hd : d ∈ l)
    (hne : d ≠ c) : 2 ≤ l.length := by
  have hde : d ∈ l.erase c := (List.mem_erase_of_ne hne).mpr hd
  have h1 : 1 ≤ (l.erase c).length := List.length_pos.mpr (fun h => by
    rw [h] at hde; cases hde)
  have h2 : (l.erase c).length = l.length - 1 := List.length_erase_of_mem hc
  have h3 : 1 ≤ l.length := List.length_pos.mpr (fun h => by
    rw [h] at hc; cases hc)
  omega

/- ---------------------------------------------------------------------
   Helpers for the claim statements
   --------------------------------------------------------------------- -/

/-- Invariant 3 holds vacuously for sequences of fewer than four entries. -/
theorem noSibGroup_short (l : List Nat) (h : l.length ≤ 3) : NoSibGroup l :=
  fun _ _ h2 => absurd h2 (by omega)

/-- Assemble `IsNormalizedL` for a short sequence from the decidable parts. -/
theorem isNormalized_short (l : List Nat) (h1 : StrictAsc l) (h2 : NoContainL l)
    (h3 : l.length ≤ 3) (h4 : AllValid l) : IsNormalizedL l :=
  ⟨h1, h2, noSibGroup_short l h3, h4⟩

/-- On a non-empty union the first element access of `expand`'s do-while loop
succeeds, and the call returns the normalized scan output. -/
theorem expandCode_cons (nb : Nat → Nat → List Nat) (a : Nat) (tl : List Nat)
    (level : Nat) :
    expandCode nb (a :: tl) level =
      some (normalizeList (expandGoF nb (a :: tl) (lowestOnBitForLevel level)
        level (a :: tl).length ((a :: tl).length - 1))) := by
  have hcond : 0 ≤ ((a :: tl).length : Int) - 1 ∧
      (((a :: tl).length : Int) - 1).toNat < (a :: tl).length := by
    simp only [List.length_cons]
    omega
  have hcell : cellIdAt (a :: tl) (((a :: tl).length : Int) - 1) =
      some ((a :: tl).getD ((((a :: tl).length : Int) - 1)).toNat 0) := by
    unfold cellIdAt
    rw [if_pos hcond]
  unfold expandCode
  rw [hcell]

/- =====================================================================
   The claims
   ===================================================================== -/

/-- C1: the spec promises that the four children of any non-leaf cell,
given in any order, normalize to exactly the parent.  In the code the cheap
sibling precheck combines the three stacked values with bitwise AND and
compares against the candidate (the upstream algorithm — and the code's own
inline comment — calls for XOR), and the AND of three distinct ascending
stack entries can never equal the strictly larger candidate, so the
collapse never fires: the four children `[1, 3, 5, 7]` of the valid
non-leaf cell `4` survive `normalize()` untouched (with result `false`)
instead of collapsing to `[4]`. -/
theorem c1_sibling_collapse_never_fires :
    [1, 3, 5, 7] = childrenOf 4 ∧ validCell 4 ∧ lowestOnBit 4 ≠ 1 ∧
      normalizeList [1, 3, 5, 7] = ([1, 3, 5, 7], false) ∧
      (normalizeList [1, 3, 5, 7]).1 ≠ [4] := by
  refine ⟨by decide, by decide, by decide, by decide, by decide⟩

/-- C2: for normalized inputs the merge of `getIntersectionUU` computes the
exact intersection — a (leaf) identifier is contained in the output iff it
is contained in both inputs — and the output is already sorted strictly
ascending and canonical: running `normalize()` on it changes nothing and
reports `false`. -/
theorem c2_intersection_correct_sorted_minimal (x y : List Nat)
    (hx : IsNormalizedL x) (hy : IsNormalizedL y) :
    StrictAsc (getIntersectionUUModel x y) ∧
      normalizeList (getIntersectionUUModel x y) =
        (getIntersectionUUModel x y, false) ∧
      ∀ id, isLeaf id →
        (containsB (getIntersectionUUModel x y) id = true ↔
          (containsB x id = true ∧ containsB y id = true)) := by
  obtain ⟨hxs, hxnc, _, hxv⟩ := hx
  obtain ⟨hys, hync, _, hyv⟩ := hy
  have hdx : OrdDisj x := ordDisj_of_normalized x hxs hxnc hxv
  have hdy : OrdDisj y := ordDisj_of_normalized y hys hync hyv
  obtain ⟨hrd, hrm⟩ := interF_sorted (x.length + y.length) x y hdx hxv hdy hyv 0 0
  have hrd' : OrdDisj (getIntersectionUUModel x y) := hrd
  have hrv : AllValid (getIntersectionUUModel x y) := by
    intro e he
    rcases hrm e he with ⟨hex, _⟩ | ⟨hey, _⟩
    · exact hxv e (by simpa using hex)
    · exact hyv e (by simpa using hey)
  refine ⟨ordDisj_strictAsc _ hrd' hrv,
    normalize_fixed _ (ordDisj_strictAsc _ hrd' hrv)
      (ordDisj_noContain _ hrd' hrv), ?_⟩
  intro id _
  have hcov := interF_cov (x.length + y.length) x y hdx hxv hdy hyv 0 0
    (by omega) id
  rw [containsB_correct _ hrd' hrv id, containsB_correct x hdx hxv id,
    containsB_correct y hdy hyv id]
  show covList (getIntersectionUUModel x y) id ↔ _
  unfold getIntersectionUUModel
  rw [hcov, List.drop_zero, List.drop_zero]

/-- C2 witness: on the concrete normalized unions `[4]` and `[1]` the
intersection contains the leaf `1`. -/
theorem c2_intersection_witness :
    containsB (getIntersectionUUModel [4] [1]) 1 = true := by
  have h := c2_intersection_correct_sorted_minimal [4] [1]
    (isNormalized_short [4] (by decide) (by decide) (by decide) (by decide))
    (isNormalized_short [1] (by decide) (by decide) (by decide) (by decide))
  exact (h.2.2 1 (by decide)).mpr ⟨by decide, by decide⟩

/-- C3: `normalize()` returns `true` exactly when the stored sequence
shrank, and an already-normalized union (sorted strictly ascending, no
mutual containment, no four-sibling run) is left unchanged with result
`false`. -/
theorem c3_normalize_flag_and_idempotence (l : List Nat) :
    ((normalizeList l).2 = true ↔ ((normalizeList l).1).length < l.length) ∧
      (IsNormalizedL l → normalizeList l = (l, false)) :=
  ⟨normalize_flag_iff l, fun h => normalize_fixed l h.1 h.2.1⟩

/-- C3 witness: the already-normalized union `[1, 5]` is a fixed point of
`normalize()` with result `false`. -/
theorem c3_normalize_witness : normalizeList [1, 5] = ([1, 5], false) :=
  (c3_normalize_flag_and_idempotence [1, 5]).2
    (isNormalized_short [1, 5] (by decide) (by decide) (by decide) (by decide))

/-- C4: a cell together with any non-empty collection of its proper
descendants normalizes to exactly the singleton ancestor, and the shrink is
reported. -/
theorem c4_redundancy_elimination (c : Nat) (l : List Nat) (hc : validCell c)
    (hcl : c ∈ l) (hdesc : ∀ e ∈ l, e = c ∨ ProperDesc c e)
    (hne : ∃ d ∈ l, d ≠ c) :
    normalizeList l = ([c], true) := by
  obtain ⟨d, hd, hdc⟩ := hne
  have hfold : (sortCells l).foldl addCell [] = [c] := by
    refine c4_fold_main c hc (sortCells l) [] (sortCells_pairwise l)
      (by simp) (by simp) ((sortCells_mem l c).mpr hcl) ?_
    exact fun e he => hdesc e ((sortCells_mem l e).mp he)
  have hlen : 2 ≤ l.length := two_mem_length l c d hcl hd hdc
  rw [normalizeList_eq, hfold,
    if_pos (show ([c] : List Nat).length < l.length by simp; omega)]
  rfl

/-- C4 witness: the cell `4` plus its descendant `1` normalizes to `[4]`
and reports the reduction. -/
theorem c4_redundancy_witness : normalizeList [4, 1] = ([4], true) :=
  c4_redundancy_elimination 4 [4, 1] (by decide) (by decide) (by decide)
    (by decide)

/-- C5 counterexample: the claim reads the replacement test as firing on
entries COARSER than the target level, but the code replaces entries FINER
than it (`id.lowestOnBit().lessThan(levelLsb)`).  On the singleton leaf
union `[1]` with `level = 29` the code coarsens the leaf to its level-29
parent `4`, while the claim's literal reading leaves it untouched. -/
theorem c5_coarser_reading_refuted :
    expandCode noNeighbors [1] 29 = some ([4], false) ∧
      expandClaimed noNeighbors [1] 29 = some ([1], false) ∧
      expandCode noNeighbors [1] 29 ≠ expandClaimed noNeighbors [1] 29 := by
  refine ⟨by decide, by decide, by decide⟩

/-- C5 (amended): `expand(level)` processes the entries from the end toward
the start; every entry FINER than `level` (lowest set bit below the
level's) is replaced by its level-`level` ancestor, skipping backward over
already-processed entries that ancestor contains; each step emits the
(possibly replaced) cell plus its same-level neighbors, and the collected
sequence is normalized before the operation returns. -/
theorem c5_expand_scan_amended (nb : Nat → Nat → List Nat) (l : List Nat)
    (level : Nat) :
    expandCode nb l level = expandSpec nb l level := by
  cases l with
  | nil => rfl
  | cons a tl =>
    rw [expandCode_cons, expandSpec, if_neg (List.cons_ne_nil a tl)]
    have hi : (a :: tl).length - 1 < (a :: tl).length := by
      simp only [List.length_cons]
      omega
    rw [expandGo_eq_spec nb (a :: tl) (lowestOnBitForLevel level) level
      (a :: tl).length ((a :: tl).length - 1) hi hi]
    have htake : ((a :: tl).take ((a :: tl).length - 1 + 1)).reverse =
        (a :: tl).reverse := by
      rw [show (a :: tl).length - 1 + 1 = (a :: tl).length from by
        simp only [List.length_cons]; omega, List.take_length]
    rw [htake]

/-- C6: `expand(level)` is monotone — whenever the call succeeds, every
identifier contained in the normalized input union is still contained in
the resulting union. -/
theorem c6_expand_monotone (nb : Nat → Nat → List Nat) (u : List Nat)
    (level : Nat) (res : List Nat × Bool) (hu : IsNormalizedL u)
    (hnb : ∀ c lvl, ∀ e ∈ nb c lvl, validCell e)
    (hres : expandCode nb u level = some res) :
    ∀ id, containsB u id = true → containsB res.1 id = true := by
  obtain ⟨hus, hunc, _, huv⟩ := hu
  cases u with
  | nil =>
    rw [show expandCode nb [] level = none from rfl] at hres
    exact Option.noConfusion hres
  | cons a tl =>
    rw [expandCode_cons] at hres
    have hres' := Option.some.inj hres
    have hdu : OrdDisj (a :: tl) := ordDisj_of_normalized _ hus hunc huv
    intro id hid
    have hcov : covList (a :: tl) id := (containsB_correct _ hdu huv id).mp hid
    obtain ⟨cc, hcc, hcc1, hcc2⟩ := hcov
    obtain ⟨k, _, hk, hceq⟩ := mem_drop_decomp (a :: tl) 0 cc (by simpa using hcc)
    have hi : (a :: tl).length - 1 < (a :: tl).length := by
      simp only [List.length_cons]
      omega
    obtain ⟨g, hg, hgc⟩ := expandGo_covers nb (a :: tl) level huv
      (a :: tl).length ((a :: tl).length - 1) hi hi k
      (by simp only [List.length_cons] at hk ⊢; omega)
    subst hceq
    have hspan := contains_span g _ id hgc hcc1 hcc2
    have hcove : covList (expandGoF nb (a :: tl) (lowestOnBitForLevel level)
        level (a :: tl).length ((a :: tl).length - 1)) id := ⟨g, hg, hspan⟩
    have hval := expandGo_valid nb (a :: tl) level huv hnb (a :: tl).length
      ((a :: tl).length - 1) hi
    have hgood := normalize_good _ hval
    rw [← hres']
    exact (containsB_correct _
      (ordDisj_of_normalized _ hgood.1 hgood.2.1 hgood.2.2) hgood.2.2 id).mpr
      ((normalize_cov _ id).mpr hcove)

/-- C6 witness: expanding the normalized union `[1]` to level 30 yields a
union that still contains the identifier `1`. -/
theorem c6_expand_monotone_witness : containsB [1] 1 = true := by
  have h := c6_expand_monotone noNeighbors [1] 30 ([1], false)
    (isNormalized_short [1] (by decide) (by decide) (by decide) (by decide))
    (fun c lvl e he => absurd he (List.not_mem_nil e))
    (by decide)
  exact h 1 (by decide)

/-- C7: `intersectsUnion(that)` is the UNIVERSAL reading — true iff every
identifier of the argument individually intersects the receiver — and a
single non-intersecting identifier of the argument forces `false`. -/
theorem c7_intersectsUnion_universal (u v : List Nat) :
    (intersectsUnionB u v = true ↔ ∀ id ∈ v, intersectsB u id = true) ∧
      ∀ id ∈ v, intersectsB u id = false → intersectsUnionB u v = false := by
  have hall : intersectsUnionB u v = true ↔ ∀ id ∈ v, intersectsB u id = true :=
    List.all_eq_true
  refine ⟨hall, ?_⟩
  intro id hid hfalse
  cases hbv : intersectsUnionB u v with
  | false => rfl
  | true =>
    have := hall.mp hbv id hid
    rw [hfalse] at this
    exact Bool.noConfusion this

/-- C7 witness: the leaf `9` of `[1, 9]` does not intersect `[4]`, so the
universal test answers `false`. -/
theorem c7_intersectsUnion_witness : intersectsUnionB [4] [1, 9] = false :=
  (c7_intersectsUnion_universal [4] [1, 9]).2 9 (by decide) (by decide)

/-- C8: `leafCellsCovered()` returns exactly the sum over the entries of
`4 ^ (30 - level)` — the 64-bit wrapping accumulation never overflows for
well-formed disjoint entries — and on the whole-sphere cover by the six
face cells the result is `6 * 4 ^ 30`. -/
theorem c8_leafCellsCovered_exact (l : List Nat) (h : IsNormalizedL l) :
    leafCellsCoveredL l = (l.map (fun c => 4 ^ (30 - levelOf c))).sum ∧
      leafCellsCoveredL [2 ^ 60, 3 * 2 ^ 60, 5 * 2 ^ 60, 7 * 2 ^ 60,
        9 * 2 ^ 60, 11 * 2 ^ 60] = 6 * 4 ^ 30 := by
  obtain ⟨h1, h2, _, h4⟩ := h
  exact ⟨leafCC_exact l (ordDisj_of_normalized l h1 h2 h4) h4, by decide⟩

/-- C8 witness: on the singleton normalized union `[1]` the count equals
the mapped sum. -/
theorem c8_leafCellsCovered_witness :
    leafCellsCoveredL [1] = (([1] : List Nat).map
      (fun c => 4 ^ (30 - levelOf c))).sum :=
  (c8_leafCellsCovered_exact [1]
    (isNormalized_short [1] (by decide) (by decide) (by decide) (by decide))).1

/-- C9: after any call to `normalize()` the stored sequence is sorted
strictly ascending, whatever the returned flag; in particular a `false`
return does not mean the stored order is what it was before the call — the
unsorted `[5, 1]` is stored back as `[1, 5]` with result `false`. -/
theorem c9_sorted_after_normalize :
    (∀ l : List Nat, StrictAsc (normalizeList l).1) ∧
      normalizeList [5, 1] = ([1, 5], false) ∧
      (normalizeList [5, 1]).1 ≠ [5, 1] :=
  ⟨fun l => normalize_sorted l, by decide, by decide⟩

/-- C10: on the empty union `expand(level)` is not a no-op: the do-while
body runs once with index `-1`, the element access yields no cell and the
operation fails, while on every non-empty union it produces a result. -/
theorem c10_expand_empty_fails :
    (∀ (nb : Nat → Nat → List Nat) (level : Nat),
        expandCode nb [] level = none) ∧
      ∀ (nb : Nat → Nat → List Nat) (l : List Nat) (level : Nat), l ≠ [] →
        ∃ r, expandCode nb l level = some r := by
  refine ⟨fun nb level => rfl, ?_⟩
  intro nb l level hne
  cases l with
  | nil => exact absurd rfl hne
  | cons a tl => exact ⟨_, expandCode_cons nb a tl level⟩

/-- C10 witness: on the non-empty union `[1]` the expansion produces a
result. -/
theorem c10_expand_witness : ∃ r, expandCode noNeighbors [1] 30 = some r :=
  c10_expand_empty_fails.2 noNeighbors [1] 30 (by decide)

end S2
